import Mathlib

/-!
# Calculator: tokenizer, recursive-descent parser and evaluator

A shallow embedding of `calculator.h` and `eval.h`.

* The character source (`std::istringstream`) is the list of characters still
  to be read together with the two state bits the code can observe
  (`eofbit`, `failbit`). A character is one `char` of the input.
* `int64_t` values are integers of `Int`. The operators `+`, `-`, `*` are reduced
  with `wrap64`, the two's-complement behaviour of the hosts the program runs on
  (C++ itself leaves signed overflow undefined). Division by zero and
  `INT64_MIN / -1` have no result there either and are kept as undefined.
* A call ends in an `Outcome`: it returns, it runs into behaviour the language
  leaves undefined (null dereference, division by zero), or it never returns.
* The parser functions take a recursion budget (`fuel`). `fuelOut` marks a budget
  that was too small; `EvaluateExpression_not_fuelOut` shows that the budget
  `parseFuel` the entry point passes is never exhausted, so `fuelOut` is not a
  behaviour of the program.
-/

namespace Calculator

/-! ## Outcomes -/

/-- Error kinds named by the specification (section 7). The source declares no
error type and contains no `throw`. -/
inductive ErrorKind
  | UnexpectedToken
  | DivideByZero
  deriving DecidableEq, Repr

/-- Operations whose behaviour C++ leaves undefined and which the source performs
without a guard. -/
inductive Undefined
  /-- `p->Evaluate()` through a null `unique_ptr`. -/
  | nullDeref
  /-- `a / b` on `int64_t` with `b == 0`. -/
  | divByZero
  /-- `a / b` on `int64_t` with `a == INT64_MIN`, `b == -1`. -/
  | divOverflow
  deriving DecidableEq, Repr

/-- How a call can end. `raised` is the exit by a thrown error; no definition of
this file produces it, since the source never throws. It is part of the type so
that the error contract of the specification can be stated against the code. -/
inductive Outcome (α : Type)
  /-- The call returns `a`. -/
  | ret (a : α)
  /-- The call ends by raising an error. -/
  | raised (e : ErrorKind)
  /-- The call executes an operation with undefined behaviour. -/
  | undefined (u : Undefined)
  /-- The call never returns: a loop whose state no longer changes. -/
  | spins
  /-- The recursion budget of the model ran out. -/
  | fuelOut
  deriving DecidableEq, Repr

/-- Sequencing of calls: the first outcome that is not a return ends the run. -/
def Outcome.bind {α β : Type} : Outcome α → (α → Outcome β) → Outcome β
  | .ret a, f => f a
  | .raised e, _ => .raised e
  | .undefined u, _ => .undefined u
  | .spins, _ => .spins
  | .fuelOut, _ => .fuelOut

/-! ## Characters and 64-bit integers -/

/-- Classifier `std::isspace` in the "C" locale: space, `\t`, `\n`, `\v`, `\f`, `\r`. -/
def isspace (c : Char) : Bool :=
  c.toNat == 32 || (9 ≤ c.toNat && c.toNat ≤ 13)

/-- Classifier `std::isdigit`: `'0'` to `'9'`. -/
def isdigit (c : Char) : Bool :=
  48 ≤ c.toNat && c.toNat ≤ 57

/-- Largest `int64_t`. -/
def INT64_MAX : Int := 9223372036854775807

/-- Smallest `int64_t`. -/
def INT64_MIN : Int := -9223372036854775808

/-- Reduction of an integer to the `int64_t` with the same residue modulo `2^64`. -/
def wrap64 (x : Int) : Int :=
  (x + 9223372036854775808) % 18446744073709551616 - 9223372036854775808

/-! ## The character source -/

/-- State of the `std::istream` the tokenizer reads from. -/
structure IStream where
  /-- Characters not yet extracted. -/
  rest : List Char
  /-- State bit `eofbit`. -/
  eofbit : Bool
  /-- State bit `failbit`. -/
  failbit : Bool
  deriving DecidableEq, Repr

/-- Test `good()`: no state bit is set. -/
def IStream.good (s : IStream) : Bool :=
  !s.eofbit && !s.failbit

/-- Member `eof()`. -/
def IStream.eof (s : IStream) : Bool :=
  s.eofbit

/-- Member `get(char&)`: extracts one character into `val` if the stream is good
and has one. Otherwise `val` keeps its value and `failbit` is set (with `eofbit`
when the end of the characters was reached). -/
def IStream.get (s : IStream) (val : Char) : Char × IStream :=
  if s.good then
    match s.rest with
    | c :: r => (c, { s with rest := r })
    | [] => (val, { s with eofbit := true, failbit := true })
  else
    (val, { s with failbit := true })

/-- Member `putback(c)` for the character extracted last: clears `eofbit`, then
makes `c` the next character if the stream is good, else sets `failbit`. -/
def IStream.putback (s : IStream) (c : Char) : IStream :=
  if !s.failbit then { s with rest := c :: s.rest, eofbit := false }
  else { s with eofbit := false, failbit := true }

/-- Value of a run of decimal digits, most significant first, continuing from `acc`. -/
def digitsValue (acc : Nat) : List Char → Nat
  | [] => acc
  | c :: cs => digitsValue (acc * 10 + (c.toNat - 48)) cs

/-- Extraction `in >> number` into an `int64_t`, for a stream whose next character
is a digit (the only use in the source, right after `putback` of a digit): the
maximal run of digits is extracted; reaching the end of the characters sets
`eofbit`; a value above `INT64_MAX` stores `INT64_MAX` and sets `failbit`. A stream
that is not good, or has no digit to offer, sets `failbit`. -/
def IStream.extractInt64 (s : IStream) (number : Int) : Int × IStream :=
  if s.good then
    let ds := s.rest.takeWhile isdigit
    let r := s.rest.dropWhile isdigit
    if ds.isEmpty then
      (0, { s with rest := r, eofbit := r.isEmpty, failbit := true })
    else
      let v : Int := (digitsValue 0 ds : Nat)
      if v ≤ INT64_MAX then
        (v, { s with rest := r, eofbit := r.isEmpty })
      else
        (INT64_MAX, { s with rest := r, eofbit := r.isEmpty, failbit := true })
  else
    (number, { s with failbit := true })

/-! ## Tokenizer -/

/-- Enumeration `Tokenizer::TokenType`. -/
inductive TokenType
  | kNumber
  | kSymbol
  | kEnd
  deriving DecidableEq, Repr

/-- Class `Tokenizer`: the stream and the three fields of the current token.
`number_` and `symbol_` keep their last value when a token of the other kind is
read. -/
structure Tokenizer where
  /-- The stream behind pointer `in_`. -/
  in_ : IStream
  /-- Field `type_`. -/
  type_ : TokenType
  /-- Field `number_`. -/
  number_ : Int
  /-- Field `symbol_`. -/
  symbol_ : Char
  deriving DecidableEq, Repr

/-- The loop `while (std::isspace(val) != 0) in_->get(val);` of `Consume`, entered
with the character `val` just read and the stream bits `eofbit`, `failbit`, by
recursion on the characters left. When `val` is whitespace and the stream cannot
deliver a character, `get` leaves `val` and the stream as they are, so the loop
runs forever: `none`. (`skipSpaces_unfold` and `get_stuck` relate this to
`IStream.get` pass by pass.) -/
def skipSpaces (eofbit failbit : Bool) (val : Char) : List Char → Option (Char × IStream)
  | [] =>
    if isspace val then none
    else some (val, ⟨[], eofbit, failbit⟩)
  | c :: r =>
    if isspace val then
      if !eofbit && !failbit then skipSpaces eofbit failbit c r
      else none
    else some (val, ⟨c :: r, eofbit, failbit⟩)

/-- Method `Tokenizer::Consume`. -/
def Tokenizer.Consume (t : Tokenizer) : Outcome Tokenizer :=
  let g := t.in_.get (Char.ofNat 0)
  match skipSpaces g.2.eofbit g.2.failbit g.1 g.2.rest with
  | none => .spins
  | some (val, s) =>
    if s.eof then
      .ret { t with in_ := s, type_ := .kEnd }
    else if isdigit val then
      let x := (s.putback val).extractInt64 t.number_
      .ret { t with in_ := x.2, number_ := x.1, type_ := .kNumber }
    else
      .ret { t with in_ := s, symbol_ := val, type_ := .kSymbol }

/-- Constructor `Tokenizer(std::istream* in)`: fields at their defaults, then one
`Consume`. -/
def Tokenizer.new (s : IStream) : Outcome Tokenizer :=
  Tokenizer.Consume ⟨s, .kEnd, 0, Char.ofNat 0⟩

/-! ## Expression trees -/

/-- Class hierarchy `Expression` as held by a `std::unique_ptr<Expression>`: the
null pointer, or a node of class `Constant`, `BinOperation` or `UnaryOperation`. -/
inductive Expression
  /-- The pointer `nullptr`. -/
  | null
  /-- Node `Constant(value)`. -/
  | Constant (value : Int)
  /-- Node `BinOperation(left, right, operation)`. -/
  | BinOperation (left right : Expression) (operation : Char)
  /-- Node `UnaryOperation(right)`. -/
  | UnaryOperation (right : Expression)
  deriving DecidableEq, Repr

/-- Operator `/` of `int64_t`: undefined for a zero divisor and for
`INT64_MIN / -1`, else the quotient truncated toward zero. -/
def div64 (a b : Int) : Outcome Int :=
  if b = 0 then .undefined .divByZero
  else if a = INT64_MIN ∧ b = -1 then .undefined .divOverflow
  else .ret (Int.tdiv a b)

/-- Virtual method `Evaluate`, called through the pointer to the node. In a
`BinOperation` the operands are evaluated only in the four operator cases (the
`default` case returns 0 at once); the left operand is taken first, an order C++
leaves open and no result depends on. -/
def Evaluate : Expression → Outcome Int
  | .null => .undefined .nullDeref
  | .Constant value => .ret value
  | .BinOperation left right operation =>
    if operation = '+' then
      (Evaluate left).bind fun l => (Evaluate right).bind fun r => .ret (wrap64 (l + r))
    else if operation = '-' then
      (Evaluate left).bind fun l => (Evaluate right).bind fun r => .ret (wrap64 (l - r))
    else if operation = '*' then
      (Evaluate left).bind fun l => (Evaluate right).bind fun r => .ret (wrap64 (l * r))
    else if operation = '/' then
      (Evaluate left).bind fun l => (Evaluate right).bind fun r => div64 l r
    else .ret 0
  | .UnaryOperation right =>
    (Evaluate right).bind fun r => .ret (wrap64 (r * (-1)))

/-! ## Parser -/

/-- Result of a parser function: the pointer it returns and the tokenizer state it
leaves. -/
abbrev Parsed := Expression × Tokenizer

mutual

/-- Function `Multiplicate` (grammar production Factor). -/
def Multiplicate : Nat → Tokenizer → Outcome Parsed
  | 0, _ => .fuelOut
  | fuel + 1, token =>
    if token.type_ = .kNumber then
      token.Consume.bind fun t1 => .ret (.Constant token.number_, t1)
    else if token.type_ = .kSymbol ∧ token.symbol_ = '(' then
      token.Consume.bind fun t1 =>
      (ParseExpression fuel t1).bind fun r =>
      r.2.Consume.bind fun t3 => .ret (r.1, t3)
    else if token.type_ = .kSymbol ∧ token.symbol_ = '-' then
      token.Consume.bind fun t1 =>
      (Multiplicate fuel t1).bind fun r => .ret (.UnaryOperation r.1, r.2)
    else
      .ret (.null, token)

/-- The `while` loop of `Item`, entered with the running result `ret`. -/
def ItemLoop : Nat → Expression → Tokenizer → Outcome Parsed
  | 0, _, _ => .fuelOut
  | fuel + 1, ret, token =>
    if token.type_ = .kSymbol ∧ (token.symbol_ = '*' ∨ token.symbol_ = '/') then
      token.Consume.bind fun t1 =>
      (Multiplicate fuel t1).bind fun r =>
      ItemLoop fuel (.BinOperation ret r.1 token.symbol_) r.2
    else
      .ret (ret, token)

/-- Function `Item` (grammar production Term). -/
def Item : Nat → Tokenizer → Outcome Parsed
  | 0, _ => .fuelOut
  | fuel + 1, token =>
    (Multiplicate fuel token).bind fun r => ItemLoop fuel r.1 r.2

/-- The `while` loop of `ParseExpression`, entered with the running result `ret`. -/
def ParseLoop : Nat → Expression → Tokenizer → Outcome Parsed
  | 0, _, _ => .fuelOut
  | fuel + 1, ret, token =>
    if token.type_ = .kSymbol ∧ (token.symbol_ = '+' ∨ token.symbol_ = '-') then
      token.Consume.bind fun t1 =>
      (Item fuel t1).bind fun r =>
      ParseLoop fuel (.BinOperation ret r.1 token.symbol_) r.2
    else
      .ret (ret, token)

/-- Function `ParseExpression` (grammar production Expression). -/
def ParseExpression : Nat → Tokenizer → Outcome Parsed
  | 0, _ => .fuelOut
  | fuel + 1, token =>
    (Item fuel token).bind fun r => ParseLoop fuel r.1 r.2

end

/-! ## Entry point -/

/-- Recursion budget that suffices for an input of `n` characters. -/
def parseFuel (n : Nat) : Nat := 3 * n + 4

/-- The stream `std::istringstream ss{expression}`. -/
def IStream.ofString (expression : String) : IStream :=
  ⟨expression.toList, false, false⟩

/-- Function `EvaluateExpression` of `eval.h`. -/
def EvaluateExpression (expression : String) : Outcome Int :=
  (Tokenizer.new (IStream.ofString expression)).bind fun tokenizer =>
  (ParseExpression (parseFuel expression.length) tokenizer).bind fun r =>
  Evaluate r.1

/-- The first two statements of `EvaluateExpression` after the stream is built:
construct the tokenizer and call `ParseExpression`; the result is the pointer
`expr` and the tokenizer state left behind. -/
def parseInput (expression : String) : Outcome Parsed :=
  (Tokenizer.new (IStream.ofString expression)).bind fun tokenizer =>
  ParseExpression (parseFuel expression.length) tokenizer

/-! ## Reference syntax and arithmetic

The grammar of the specification (section 4.2), as syntax trees that record every
character of the text: the whitespace before each token, the digits of each
literal, the parentheses. -/

/-- Syntax of an expression text. -/
inductive Syn
  /-- A literal: whitespace `ws`, then the digits `ds`. -/
  | num (ws ds : List Char)
  /-- A group: whitespace, `(`, the expression `e`, whitespace, `)`. -/
  | paren (ws1 : List Char) (e : Syn) (ws2 : List Char)
  /-- A negation: whitespace, `-`, the factor `f`. -/
  | neg (ws : List Char) (f : Syn)
  /-- A binary operation: `l`, whitespace, the operator character `op`, `r`. -/
  | bin (l : Syn) (ws : List Char) (op : Char) (r : Syn)
  deriving DecidableEq, Repr

/-- The text of a syntax tree. -/
def Syn.print : Syn → List Char
  | .num ws ds => ws ++ ds
  | .paren ws1 e ws2 => ws1 ++ '(' :: (e.print ++ (ws2 ++ [')']))
  | .neg ws f => ws ++ '-' :: f.print
  | .bin l ws op r => l.print ++ (ws ++ op :: r.print)

/-- Operators of the production Term. -/
def isMulOp (c : Char) : Bool := c == '*' || c == '/'

/-- Operators of the production Expression. -/
def isAddOp (c : Char) : Bool := c == '+' || c == '-'

/-- Grammar level of a syntax tree: 0 for Factor, 1 for a Term with an operator,
2 for an Expression with an operator. -/
def Syn.level : Syn → Nat
  | .bin _ _ op _ => if isMulOp op then 1 else 2
  | _ => 0

/-- A literal of the grammar: a nonempty run of digits whose value fits `int64_t`. -/
def isLiteral (ds : List Char) : Bool :=
  !ds.isEmpty && ds.all isdigit && decide ((digitsValue 0 ds : Int) ≤ INT64_MAX)

/-- Membership in the grammar
`Expression := Term (('+'|'-') Term)*`, `Term := Factor (('*'|'/') Factor)*`,
`Factor := Number | '(' Expression ')' | '-' Factor`, with whitespace allowed
before every token. -/
def Syn.valid : Syn → Bool
  | .num ws ds => ws.all isspace && isLiteral ds
  | .paren ws1 e ws2 => ws1.all isspace && ws2.all isspace && e.valid
  | .neg ws f => ws.all isspace && f.valid && f.level == 0
  | .bin l ws op r =>
    ws.all isspace && l.valid && r.valid &&
      ((isMulOp op && decide (l.level ≤ 1) && r.level == 0) ||
       (isAddOp op && decide (r.level ≤ 1)))

/-- The expression tree a syntax tree stands for. -/
def Syn.tree : Syn → Expression
  | .num _ ds => .Constant (digitsValue 0 ds)
  | .paren _ e _ => e.tree
  | .neg _ f => .UnaryOperation f.tree
  | .bin l _ op r => .BinOperation l.tree r.tree op

/-- Quotient of two integers rounded toward zero, from the quotient of their
absolute values. -/
def truncQuot (a b : Int) : Int :=
  Int.sign a * Int.sign b * ((a.natAbs / b.natAbs : Nat) : Int)

/-- Value of a syntax tree under ordinary integer arithmetic, division rounding
toward zero. -/
def Syn.value : Syn → Int
  | .num _ ds => digitsValue 0 ds
  | .paren _ e _ => e.value
  | .neg _ f => - f.value
  | .bin l _ op r =>
    if op = '+' then l.value + r.value
    else if op = '-' then l.value - r.value
    else if op = '*' then l.value * r.value
    else truncQuot l.value r.value

/-- Range of `int64_t`. -/
def inInt64 (x : Int) : Bool := decide (INT64_MIN ≤ x) && decide (x ≤ INT64_MAX)

/-- No division by zero, and the value of every subexpression fits `int64_t`. -/
def Syn.safe : Syn → Bool
  | .num ws ds => inInt64 (Syn.num ws ds).value
  | .paren _ e _ => e.safe
  | .neg ws f => f.safe && inInt64 (Syn.neg ws f).value
  | .bin l ws op r =>
    l.safe && r.safe && (op != '/' || decide (r.value ≠ 0)) &&
      inInt64 (Syn.bin l ws op r).value

/-- Number of operators of the production Term at the top of a syntax tree. -/
def Syn.mulOps : Syn → Nat
  | .bin l _ op _ => if isMulOp op then l.mulOps + 1 else 0
  | _ => 0

/-- Number of operators of the production Expression at the top of a syntax tree. -/
def Syn.addOps : Syn → Nat
  | .bin l _ op _ => if isMulOp op then 0 else l.addOps + 1
  | _ => 0

/-- A tokenizer about to read the characters `cs`: they are what the stream holds,
no extraction has failed, and `eofbit` is set only at the end of the characters. -/
def Pending (t : Tokenizer) (cs : List Char) : Prop :=
  t.in_.rest = cs ∧ t.in_.failbit = false ∧ (t.in_.eofbit = true → cs = [])

/-- The text `k` does not begin with a digit. -/
def NoDigitHead (k : List Char) : Prop :=
  ∀ c r, k = c :: r → isdigit c = false

/-- First character of `k` that is not whitespace. -/
def firstNonSpace (k : List Char) : Option Char :=
  (k.dropWhile isspace).head?

/-- The last token of the text is `)`. -/
def Syn.endsClosed : Syn → Bool
  | .num _ _ => false
  | .paren _ _ _ => true
  | .neg _ f => f.endsClosed
  | .bin _ _ _ r => r.endsClosed

/-- The text `k` starts at a token boundary after the text of `s`: `s` ends in `)`,
or `k` does not begin with a digit (which would be read into a final literal of
`s`). -/
def Boundary (s : Syn) (k : List Char) : Prop :=
  s.endsClosed = true ∨ NoDigitHead k

/-- The factor text `s` is parsed by `Multiplicate` to `s.tree`, whatever follows. -/
def FactorOk (s : Syn) : Prop :=
  ∀ (k : List Char) (t0 : Tokenizer) (n : Nat), Boundary s k → Pending t0 (s.print ++ k) →
    3 * s.print.length + 1 ≤ n →
    ∃ t1, Pending t1 k ∧
      t0.Consume.bind (Multiplicate n) = t1.Consume.bind fun t => .ret (s.tree, t)

/-- The term text `s` takes `Item` through `s.mulOps` rounds of its loop, which then
goes on with `s.tree` as the running result. -/
def TermOk (s : Syn) : Prop :=
  ∀ (k : List Char) (t0 : Tokenizer) (m : Nat), Boundary s k → Pending t0 (s.print ++ k) →
    3 * s.print.length + 1 ≤ m + 6 * s.mulOps →
    ∃ t1, Pending t1 k ∧
      t0.Consume.bind (Item (m + 1 + s.mulOps)) = t1.Consume.bind (ItemLoop m s.tree)

/-- The expression text `s` takes `ParseExpression` through `s.addOps` rounds of its
loop, which then goes on with `s.tree` as the running result. -/
def ExprOk (s : Syn) : Prop :=
  ∀ (k : List Char) (t0 : Tokenizer) (m : Nat), Boundary s k →
    firstNonSpace k ≠ some '*' → firstNonSpace k ≠ some '/' →
    Pending t0 (s.print ++ k) →
    3 * s.print.length + 2 ≤ m + 6 * s.addOps →
    ∃ t1, Pending t1 k ∧
      t0.Consume.bind (ParseExpression (m + 1 + s.addOps))
        = t1.Consume.bind (ParseLoop m s.tree)

/-! ## Trees and texts used in the statements -/

/-- Every `BinOperation` of the tree carries one of the characters `+ - * /`. -/
def Expression.opsKnown : Expression → Bool
  | .BinOperation left right operation =>
    (isAddOp operation || isMulOp operation) && left.opsKnown && right.opsKnown
  | .UnaryOperation right => right.opsKnown
  | _ => true

/-- The tree contains a division node whose right operand evaluates to 0. -/
def Expression.hasZeroDivisor : Expression → Bool
  | .BinOperation left right operation =>
    (operation == '/' && decide (Evaluate right = .ret 0)) ||
      left.hasZeroDivisor || right.hasZeroDivisor
  | .UnaryOperation right => right.hasZeroDivisor
  | _ => false

/-- One further link of a chain of operands: whitespace, an operator, an operand. -/
structure Link where
  /-- Whitespace before the operator. -/
  ws : List Char
  /-- The operator character. -/
  op : Char
  /-- The operand after the operator. -/
  operand : Syn
  deriving DecidableEq, Repr

/-- The text `t1 op1 t2 op2 ... tn` of a chain, as a syntax tree. -/
def chain (first : Syn) (links : List Link) : Syn :=
  links.foldl (fun acc x => .bin acc x.ws x.op x.operand) first

/-- The left-nested tree `BinOp(...BinOp(BinOp(t1,t2,op1),t3,op2)...,tn,opn-1)`. -/
def leftNested (first : Expression) (links : List Link) : Expression :=
  links.foldl (fun acc x => .BinOperation acc x.operand.tree x.op) first

/-- A chain at Term level: factors joined by `*` and `/`. -/
def isTermChain (first : Syn) (links : List Link) : Bool :=
  first.valid && first.level == 0 &&
    links.all fun x => x.ws.all isspace && isMulOp x.op && x.operand.valid && x.operand.level == 0

/-- A chain at Expression level: terms joined by `+` and `-`. -/
def isExprChain (first : Syn) (links : List Link) : Bool :=
  first.valid && decide (first.level ≤ 1) &&
    links.all fun x =>
      x.ws.all isspace && isAddOp x.op && x.operand.valid && decide (x.operand.level ≤ 1)

/-- The characters of a link: whitespace, operator, operand. -/
def Link.text (x : Link) : List Char :=
  x.ws ++ x.op :: x.operand.print

/-- The characters of a run of links, one after the other. -/
def linksText : List Link → List Char
  | [] => []
  | x :: links => x.text ++ linksText links

/-- The characters of a chain: the first operand, then the links. -/
def chainText (first : Syn) (links : List Link) : List Char :=
  first.print ++ linksText links

/-- Minus signs, one for each element of `wss` (the whitespace before it), in front
of the factor `f`. -/
def negated (wss : List (List Char)) (f : Syn) : Syn :=
  wss.foldr (fun ws acc => .neg ws acc) f

/-- The characters of a run of minus signs, each after its whitespace. -/
def minusText : List (List Char) → List Char
  | [] => []
  | ws :: wss => ws ++ '-' :: minusText wss

/-- Nesting of `n` nodes `UnaryOperation` around a tree. -/
def nestedUnary : Nat → Expression → Expression
  | 0, e => e
  | n + 1, e => .UnaryOperation (nestedUnary n e)

/-- The text `2 + 3 * 4`. -/
def exPrecedence : Syn :=
  .bin (.num [] ['2']) [' '] '+' (.bin (.num [' '] ['3']) [' '] '*' (.num [' '] ['4']))

/-- The text `1 - 2 - 3`, as a chain of three terms. -/
def exChain : List Link :=
  [⟨[' '], '-', .num [' '] ['2']⟩, ⟨[' '], '-', .num [' '] ['3']⟩]

/-- The text `2 + 3`. -/
def exSum : Syn := .bin (.num [] ['2']) [' '] '+' (.num [' '] ['3'])

/-- The same syntax with all whitespace removed. -/
def Syn.strip : Syn → Syn
  | .num _ ds => .num [] ds
  | .paren _ e _ => .paren [] e.strip []
  | .neg _ f => .neg [] f.strip
  | .bin l _ op r => .bin l.strip [] op r.strip

/-- Number of characters the stream can still deliver. -/
def IStream.avail (s : IStream) : Nat :=
  if s.good then s.rest.length else 0

/-- The current token is a symbol on which a parser function consumes and goes on:
`(`, `-`, `+`, `*` or `/`. -/
def Tokenizer.live (t : Tokenizer) : Bool :=
  t.type_ == .kSymbol &&
    (t.symbol_ == '(' || t.symbol_ == '-' || t.symbol_ == '+' || t.symbol_ == '*' ||
      t.symbol_ == '/')

/-- Measure of the work left for the parser: the characters still deliverable, plus
one when the current token makes the parser go on. -/
def Tokenizer.measure (t : Tokenizer) : Nat :=
  t.in_.avail + if t.live then 1 else 0

/-- A parser call neither exhausts its budget nor hands back a tokenizer with a
measure above `b`. -/
def Within (o : Outcome Parsed) (b : Nat) : Prop :=
  o ≠ .fuelOut ∧ ∀ r, o = .ret r → r.2.measure ≤ b

/-- The text `1+2`. -/
def exOnePlusTwo : Syn := .bin (.num [] ['1']) [] '+' (.num [] ['2'])

/-! ## Token sequences -/

/-- Token of the data model: a number, a single-character symbol, or the end of the
input. -/
inductive Token
  | Number (value : Int)
  | Symbol (c : Char)
  | End
  deriving DecidableEq, Repr

/-- The current token, as the getters `GetType`, `GetNumber`, `GetSymbol` show it. -/
def Tokenizer.current (t : Tokenizer) : Token :=
  match t.type_ with
  | .kNumber => .Number t.number_
  | .kSymbol => .Symbol t.symbol_
  | .kEnd => .End

/-- Calls of `Consume`, `n` of them in a row. -/
def consumeTimes : Nat → Tokenizer → Outcome Tokenizer
  | 0, t => .ret t
  | n + 1, t => t.Consume.bind (consumeTimes n)

/-- The current token and those that further calls of `Consume` bring, up to the
first `End`; at most `fuel` tokens are taken. -/
def tokensFrom : Nat → Tokenizer → Outcome (List Token)
  | 0, _ => .fuelOut
  | fuel + 1, t =>
    if t.type_ = .kEnd then .ret [.End]
    else t.Consume.bind fun t1 => (tokensFrom fuel t1).bind fun l => .ret (t.current :: l)

/-- The token sequence of an input: a tokenizer is constructed on it and advanced
up to `End`. The outcome is `spins` when a `Consume` does not return, and `fuelOut`
when `End` is not among the first `input.length + 1` tokens, as on a stream that has
failed short of its end. -/
def tokenize (input : String) : Outcome (List Token) :=
  (Tokenizer.new (IStream.ofString input)).bind (tokensFrom (input.length + 1))

/-- The stream states the tokenizer can be in: a stream that has failed has reached
its end or still holds characters (a literal too large for `int64_t` was read). It
holds of a fresh stream and `Consume` keeps it (`Consume_sound`). -/
def IStream.sound (s : IStream) : Prop :=
  s.rest = [] → s.failbit = true → s.eofbit = true

/-! ## Fully parenthesised printing -/

/-- Fully parenthesised text of a tree: a constant as its decimal digits, a negation
as `-(e)`, a binary node as `(l op r)`. -/
def render : Expression → List Char
  | .null => []
  | .Constant value => Nat.toDigits 10 value.toNat
  | .UnaryOperation right => '-' :: '(' :: (render right ++ [')'])
  | .BinOperation left right operation =>
    '(' :: (render left ++ operation :: (render right ++ [')']))

/-- The trees that are printed: no null pointer, constants from 0 to `INT64_MAX`,
operators among `+ - * /`. -/
def renderable : Expression → Bool
  | .null => false
  | .Constant value => decide (0 ≤ value) && decide (value ≤ INT64_MAX)
  | .UnaryOperation right => renderable right
  | .BinOperation left right operation =>
    (isAddOp operation || isMulOp operation) && renderable left && renderable right

/-- The printed text of a tree as a syntax tree of the grammar. -/
def renderSyn : Expression → Syn
  | .null => .num [] []
  | .Constant value => .num [] (Nat.toDigits 10 value.toNat)
  | .UnaryOperation right => .neg [] (.paren [] (renderSyn right) [])
  | .BinOperation left right operation =>
    .paren [] (.bin (renderSyn left) [] operation (renderSyn right)) []

/-- The tree `(-(12)*3)`. -/
def exRendered : Expression :=
  .BinOperation (.UnaryOperation (.Constant 12)) (.Constant 3) '*'

/-! ## Operators of parsed trees -/

/-- The tree `e` is `base` under zero or more `BinOperation` nodes along the left
spine, each with an operator accepted by `p` and a right operand whose operators are
all among `+ - * /`. -/
def stackedOn (p : Char → Bool) (base : Expression) : Expression → Bool
  | .BinOperation left right operation =>
    (Expression.BinOperation left right operation == base) ||
      (p operation && right.opsKnown && stackedOn p base left)
  | e => e == base

/-- The call returns. -/
def Outcome.returns {α : Type} : Outcome α → Bool
  | .ret _ => true
  | _ => false

/-- The evaluation of the tree runs into the `default` case of the `switch` in
`BinOperation::Evaluate`: at the node itself, in its left operand, or in its right
operand once the left one has returned. -/
def defaultTaken : Expression → Bool
  | .BinOperation left right operation =>
    if isAddOp operation || isMulOp operation then
      defaultTaken left ||
        ((Evaluate left).returns && defaultTaken right)
    else true
  | .UnaryOperation right => defaultTaken right
  | _ => false

/-! ## Tokens left to read -/

/-- Number of tokens in a text. `inNumber` says that the character before the text
was a digit, so that digits at the head of the text continue a literal. -/
def countTokens (inNumber : Bool) : List Char → Nat
  | [] => 0
  | c :: cs =>
    if isspace c then countTokens false cs
    else if isdigit c then (if inNumber then 0 else 1) + countTokens true cs
    else 1 + countTokens false cs

/-- Number of tokens the stream can still deliver. -/
def IStream.tokensLeft (s : IStream) : Nat :=
  if s.good then countTokens false s.rest else 0

/-- Tokens left for the parser: those of the stream, plus the current one when it
makes the parser go on. -/
def Tokenizer.tokenMeasure (t : Tokenizer) : Nat :=
  t.in_.tokensLeft + if t.live then 1 else 0

/-- The text ends in whitespace. -/
def endsInSpace : List Char → Bool
  | [] => false
  | c :: cs => if cs.isEmpty then isspace c else endsInSpace cs

/-- A parser call returns, leaving a text that does not end in whitespace and a
token measure of at most `b`. -/
def Returns (o : Outcome Parsed) (b : Nat) : Prop :=
  ∃ r, o = .ret r ∧ endsInSpace r.2.in_.rest = false ∧ r.2.tokenMeasure ≤ b

/-- Every run of digits in the text has a value that fits `int64_t`; `acc` is the
value of the digits right before the text. -/
def literalsFit (acc : Nat) : List Char → Bool
  | [] => true
  | c :: cs =>
    if isdigit c then
      decide (((acc * 10 + (c.toNat - 48) : Nat) : Int) ≤ INT64_MAX) &&
        literalsFit (acc * 10 + (c.toNat - 48)) cs
    else literalsFit 0 cs

/-! ## Theorems -/

/-! ### Sequencing of outcomes -/

@[simp] theorem Outcome.bind_ret {α β : Type} (a : α) (f : α → Outcome β) :
    (Outcome.ret a).bind f = f a := rfl

theorem Outcome.bind_assoc {α β γ : Type} (x : Outcome α) (f : α → Outcome β)
    (g : β → Outcome γ) : (x.bind f).bind g = x.bind fun a => (f a).bind g := by
  cases x <;> rfl

theorem Outcome.bind_congr {α β : Type} (x : Outcome α) (f g : α → Outcome β)
    (h : ∀ a, x = .ret a → f a = g a) : x.bind f = x.bind g := by
  cases x with
  | ret a => exact h a rfl
  | raised e => rfl
  | undefined u => rfl
  | spins => rfl
  | fuelOut => rfl

theorem Outcome.bind_not_raised {α β : Type} (x : Outcome α) (f : α → Outcome β)
    (hx : ∀ e, x ≠ .raised e) (hf : ∀ a e, f a ≠ .raised e) :
    ∀ e, x.bind f ≠ .raised e := by
  intro e
  cases x with
  | ret a => exact hf a e
  | raised e1 => exact absurd rfl (hx e1)
  | undefined u => intro h; cases h
  | spins => intro h; cases h
  | fuelOut => intro h; cases h

/-! ### The whitespace loop and `Consume` -/

/-- The whitespace loop, pass by pass: while `val` is whitespace the body is one
`get`; if the stream cannot deliver, the loop does not end. -/
theorem skipSpaces_unfold (s : IStream) (val : Char) :
    skipSpaces s.eofbit s.failbit val s.rest =
      if isspace val = true then
        if s.good = true ∧ s.rest ≠ [] then
          skipSpaces (s.get val).2.eofbit (s.get val).2.failbit (s.get val).1
            (s.get val).2.rest
        else none
      else some (val, s) := by
  obtain ⟨rest, e, f⟩ := s
  cases rest with
  | nil => cases h : isspace val <;> simp [skipSpaces, h]
  | cons c r =>
    cases h : isspace val <;> cases e <;> cases f <;>
      simp [skipSpaces, h, IStream.get, IStream.good]

/-- A `get` on a stream that cannot deliver keeps `val`, and from then on changes
nothing: with `val` whitespace the loop of `Consume` repeats the same state. -/
theorem get_stuck (s : IStream) (val : Char) (h : ¬(s.good = true ∧ s.rest ≠ [])) :
    (s.get val).1 = val ∧ (s.get val).2.good = false ∧
      (s.get val).2.get val = (val, (s.get val).2) := by
  obtain ⟨rest, e, f⟩ := s
  cases rest <;> cases e <;> cases f <;> simp_all [IStream.get, IStream.good]

theorem skipSpaces_nonspace (e f : Bool) (c : Char) (k : List Char)
    (hc : isspace c = false) : skipSpaces e f c k = some (c, ⟨k, e, f⟩) := by
  cases k <;> simp [skipSpaces, hc]

theorem skipSpaces_spaces (ws : List Char) (w c : Char) (k : List Char)
    (hw : isspace w = true) (hws : ws.all isspace = true) (hc : isspace c = false) :
    skipSpaces false false w (ws ++ c :: k) = some (c, ⟨k, false, false⟩) := by
  induction ws generalizing w with
  | nil => simp [skipSpaces, hw, skipSpaces_nonspace, hc]
  | cons x xs ih =>
    simp only [List.all_cons, Bool.and_eq_true] at hws
    simp [skipSpaces, hw, ih x hws.1 hws.2]

theorem skipSpaces_all_space (ws : List Char) (w : Char) (hw : isspace w = true)
    (hws : ws.all isspace = true) : skipSpaces false false w ws = none := by
  induction ws generalizing w with
  | nil => simp [skipSpaces, hw]
  | cons x xs ih =>
    simp only [List.all_cons, Bool.and_eq_true] at hws
    simp [skipSpaces, hw, ih x hws.1 hws.2]

theorem skipSpaces_some (e f : Bool) (v : Char) (l : List Char) (val : Char) (s : IStream)
    (h : skipSpaces e f v l = some (val, s)) :
    s.eofbit = e ∧ s.failbit = f ∧ s.rest.length ≤ l.length ∧ isspace val = false := by
  induction l generalizing v with
  | nil =>
    simp only [skipSpaces] at h
    split at h
    · cases h
    · rename_i hv
      cases h
      exact ⟨rfl, rfl, Nat.le_refl _, by simpa using hv⟩
  | cons c r ih =>
    simp only [skipSpaces] at h
    split at h
    · split at h
      · obtain ⟨h1, h2, h3, h4⟩ := ih c h
        exact ⟨h1, h2, by simp only [List.length_cons]; omega, h4⟩
      · cases h
    · rename_i hv
      cases h
      exact ⟨rfl, rfl, Nat.le_refl _, by simpa using hv⟩

/-- After the first `get` and the whitespace loop, a tokenizer pending at `ws ++ c :: k`
holds `c` with `k` left in a good stream. -/
theorem skip_pending (t : Tokenizer) (ws : List Char) (c : Char) (k : List Char)
    (hp : Pending t (ws ++ c :: k)) (hws : ws.all isspace = true)
    (hc : isspace c = false) :
    skipSpaces (t.in_.get (Char.ofNat 0)).2.eofbit (t.in_.get (Char.ofNat 0)).2.failbit
      (t.in_.get (Char.ofNat 0)).1 (t.in_.get (Char.ofNat 0)).2.rest
      = some (c, ⟨k, false, false⟩) := by
  obtain ⟨hr, hf, he⟩ := hp
  have he' : t.in_.eofbit = false := by
    cases h : t.in_.eofbit
    · rfl
    · have := he h; simp at this
  cases ws with
  | nil =>
    simp [IStream.get, IStream.good, hr, hf, he', skipSpaces_nonspace, hc]
  | cons w ws =>
    simp only [List.all_cons, Bool.and_eq_true] at hws
    simp [IStream.get, IStream.good, hr, hf, he', skipSpaces_spaces, hws.1, hws.2, hc]

theorem isspace_of_isdigit (c : Char) (h : isdigit c = true) : isspace c = false := by
  simp only [isdigit, isspace, Bool.and_eq_true, decide_eq_true_eq, Bool.or_eq_false_iff,
    Bool.and_eq_false_iff, beq_eq_false_iff_ne, decide_eq_false_iff_not] at *
  omega

theorem takeWhile_digits (ds k : List Char) (hds : ds.all isdigit = true)
    (hk : NoDigitHead k) : (ds ++ k).takeWhile isdigit = ds := by
  induction ds with
  | nil =>
    cases k with
    | nil => rfl
    | cons c r => simp [List.takeWhile, hk c r rfl]
  | cons d ds ih =>
    simp only [List.all_cons, Bool.and_eq_true] at hds
    simp [List.takeWhile, hds.1, ih hds.2]

theorem dropWhile_digits (ds k : List Char) (hds : ds.all isdigit = true)
    (hk : NoDigitHead k) : (ds ++ k).dropWhile isdigit = k := by
  induction ds with
  | nil =>
    cases k with
    | nil => rfl
    | cons c r => simp [List.dropWhile, hk c r rfl]
  | cons d ds ih =>
    simp only [List.all_cons, Bool.and_eq_true] at hds
    simp [List.dropWhile, hds.1, ih hds.2]

theorem dropWhile_length_le (p : Char → Bool) (l : List Char) :
    (l.dropWhile p).length ≤ l.length := by
  induction l with
  | nil => simp
  | cons c r ih =>
    simp only [List.dropWhile]
    split
    · simp only [List.length_cons]; omega
    · exact Nat.le_refl _

theorem span_spaces (k : List Char) :
    ∃ ws, ws.all isspace = true ∧ k = ws ++ k.dropWhile isspace := by
  induction k with
  | nil => exact ⟨[], rfl, rfl⟩
  | cons c r ih =>
    obtain ⟨ws, h1, h2⟩ := ih
    cases hc : isspace c
    · exact ⟨[], rfl, by simp [List.dropWhile, hc]⟩
    · refine ⟨c :: ws, by simp [hc, h1], ?_⟩
      simp only [List.dropWhile, hc, List.cons_append]
      rw [← h2]

theorem Consume_symbol (t : Tokenizer) (ws : List Char) (c : Char) (k : List Char)
    (hp : Pending t (ws ++ c :: k)) (hws : ws.all isspace = true)
    (hc : isspace c = false) (hd : isdigit c = false) :
    ∃ t1, t.Consume = .ret t1 ∧ t1.type_ = .kSymbol ∧ t1.symbol_ = c ∧ Pending t1 k := by
  refine ⟨{ t with in_ := ⟨k, false, false⟩, symbol_ := c, type_ := .kSymbol }, ?_, rfl, rfl, ?_⟩
  · simp [Tokenizer.Consume, skip_pending t ws c k hp hws hc, IStream.eof, hd]
  · simp [Pending]

theorem Consume_number (t : Tokenizer) (ws ds k : List Char)
    (hp : Pending t (ws ++ (ds ++ k))) (hws : ws.all isspace = true)
    (hl : isLiteral ds = true) (hk : NoDigitHead k) :
    ∃ t1, t.Consume = .ret t1 ∧ t1.type_ = .kNumber ∧
      t1.number_ = (digitsValue 0 ds : Nat) ∧ Pending t1 k := by
  cases ds with
  | nil => simp [isLiteral] at hl
  | cons d ds =>
    simp only [isLiteral, List.isEmpty_cons, Bool.not_false, Bool.true_and, Bool.and_eq_true,
      List.all_cons, decide_eq_true_eq] at hl
    obtain ⟨⟨hd, hds⟩, hv⟩ := hl
    have hall : (d :: ds).all isdigit = true := by simp [hd, hds]
    have hsk := skip_pending t ws d (ds ++ k) (by simpa using hp) hws (isspace_of_isdigit d hd)
    refine ⟨⟨⟨k, k.isEmpty, false⟩, .kNumber, Int.ofNat (digitsValue 0 (d :: ds)), t.symbol_⟩,
      ?_, rfl, rfl, ?_⟩
    · have h1 := takeWhile_digits (d :: ds) k hall hk
      have h2 := dropWhile_digits (d :: ds) k hall hk
      simp only [List.cons_append] at h1 h2
      simp [Tokenizer.Consume, hsk, IStream.eof, hd, IStream.putback, IStream.extractInt64,
        IStream.good, h1, h2, hv]
    · simp [Pending]

theorem Consume_end (t : Tokenizer) (hp : Pending t []) :
    ∃ t1, t.Consume = .ret t1 ∧ t1.type_ = .kEnd := by
  obtain ⟨hr, hf, -⟩ := hp
  refine ⟨{ t with in_ := ⟨[], true, true⟩, type_ := .kEnd }, ?_, rfl⟩
  cases he : t.in_.eofbit <;>
    simp [Tokenizer.Consume, IStream.get, IStream.good, hr, hf, he, skipSpaces, isspace,
      IStream.eof]

/-- A symbol token read from pending text is the first character of the text that
is not whitespace. -/
theorem Consume_symbol_inv (t t1 : Tokenizer) (k : List Char) (hp : Pending t k)
    (hc : t.Consume = .ret t1) (ht : t1.type_ = .kSymbol) :
    firstNonSpace k = some t1.symbol_ := by
  obtain ⟨ws, hws, hk⟩ := span_spaces k
  cases hd : k.dropWhile isspace with
  | nil =>
    rw [hd, List.append_nil] at hk
    subst hk
    exfalso
    cases k with
    | nil =>
      obtain ⟨t2, h2, h3⟩ := Consume_end t hp
      rw [h2] at hc
      cases hc
      rw [h3] at ht
      cases ht
    | cons w ws =>
      obtain ⟨hr, hf, he⟩ := hp
      have he' : t.in_.eofbit = false := by
        cases h : t.in_.eofbit
        · rfl
        · have := he h; simp at this
      simp only [List.all_cons, Bool.and_eq_true] at hws
      simp [Tokenizer.Consume, IStream.get, IStream.good, hr, hf, he',
        skipSpaces_all_space ws w hws.1 hws.2] at hc
  | cons c r =>
    have hcs : isspace c = false := by
      have := List.head_dropWhile_not isspace k (by simp [hd])
      simpa [hd] using this
    rw [hd] at hk
    have hp' : Pending t (ws ++ c :: r) := by rw [← hk]; exact hp
    have hsk := skip_pending t ws c r hp' hws hcs
    simp only [firstNonSpace, hd, List.head?_cons, Option.some.injEq]
    cases hdg : isdigit c
    · obtain ⟨t2, h2, -, h4, -⟩ := Consume_symbol t ws c r hp' hws hcs hdg
      rw [h2] at hc
      cases hc
      exact h4.symm
    · exfalso
      simp [Tokenizer.Consume, hsk, IStream.eof, hdg] at hc
      rw [← hc] at ht
      cases ht

theorem Consume_not_raised (t : Tokenizer) : ∀ e, t.Consume ≠ .raised e := by
  intro e
  simp only [Tokenizer.Consume]
  split
  · intro h; cases h
  · split
    · intro h; cases h
    · split <;> intro h <;> cases h

theorem Consume_not_fuelOut (t : Tokenizer) : t.Consume ≠ .fuelOut := by
  simp only [Tokenizer.Consume]
  split
  · intro h; cases h
  · split
    · intro h; cases h
    · split <;> intro h <;> cases h

/-- One `Consume` brings the measure down to the characters that were deliverable. -/
theorem Consume_measure (t t1 : Tokenizer) (h : t.Consume = .ret t1) :
    t1.measure ≤ t.in_.avail := by
  obtain ⟨⟨rest, e, f⟩, ty, num, sym⟩ := t
  simp only [Tokenizer.Consume] at h
  split at h
  · cases h
  · rename_i val s hs
    obtain ⟨h1, h2, h3, h4⟩ := skipSpaces_some _ _ _ _ _ _ hs
    by_cases hg : (e = false ∧ f = false) ∧ rest ≠ []
    · obtain ⟨⟨rfl, rfl⟩, hne⟩ := hg
      obtain ⟨c, r, rfl⟩ : ∃ c r, rest = c :: r := by
        cases rest with
        | nil => exact absurd rfl hne
        | cons c r => exact ⟨c, r, rfl⟩
      simp only [IStream.get, IStream.good, Bool.not_false, Bool.and_self, if_true] at h1 h2 h3
      obtain ⟨srest, se, sf⟩ := s
      simp only at h1 h2 h3
      subst h1 h2
      simp only [IStream.eof, Bool.false_eq_true, if_false] at h
      split at h
      · rename_i hd
        cases h
        simp only [Tokenizer.measure, Tokenizer.live, IStream.avail, IStream.putback,
          IStream.extractInt64, IStream.good, Bool.not_false, Bool.and_self, if_true,
          List.takeWhile, List.dropWhile, hd, List.isEmpty_cons, Bool.false_eq_true, if_false]
        have := dropWhile_length_le isdigit srest
        have hk : (TokenType.kNumber == TokenType.kSymbol) = false := by decide
        simp only [hk, Bool.false_and, Bool.false_eq_true, if_false, Nat.add_zero,
          List.length_cons]
        by_cases hv : ((digitsValue 0 (val :: List.takeWhile isdigit srest) : Nat) : Int)
            ≤ INT64_MAX
        · simp only [hv, if_true]
          split <;> omega
        · simp only [hv, if_false]
          split <;> omega
      · cases h
        simp only [Tokenizer.measure, IStream.avail, IStream.good, Bool.not_false,
          Bool.and_self, if_true, List.length_cons]
        split <;> omega
    · have hfail : (IStream.get ⟨rest, e, f⟩ (Char.ofNat 0)).1 = Char.ofNat 0 ∧
          (IStream.get ⟨rest, e, f⟩ (Char.ofNat 0)).2.failbit = true := by
        cases rest <;> cases e <;> cases f <;> simp_all [IStream.get, IStream.good]
      rw [hfail.1] at hs
      rw [skipSpaces_nonspace _ _ _ _ (by decide)] at hs
      cases hs
      split at h
      · cases h
        simp [Tokenizer.measure, Tokenizer.live, IStream.avail, IStream.good, hfail.2]
      · simp only [show isdigit (Char.ofNat 0) = false by decide, Bool.false_eq_true,
          if_false] at h
        cases h
        simp [Tokenizer.measure, Tokenizer.live, IStream.avail, IStream.good, hfail.2]

theorem NoDigitHead_spaces_cons (ws : List Char) (c : Char) (r : List Char)
    (hws : ws.all isspace = true) (hc : isdigit c = false) : NoDigitHead (ws ++ c :: r) := by
  intro x y hxy
  cases ws with
  | nil =>
    simp only [List.nil_append, List.cons.injEq] at hxy
    rw [← hxy.1]; exact hc
  | cons w ws =>
    simp only [List.cons_append, List.cons.injEq] at hxy
    simp only [List.all_cons, Bool.and_eq_true] at hws
    rw [← hxy.1]
    cases hd : isdigit w
    · rfl
    · have := isspace_of_isdigit w hd
      rw [hws.1] at this
      cases this

theorem firstNonSpace_spaces_cons (ws : List Char) (c : Char) (r : List Char)
    (hws : ws.all isspace = true) (hc : isspace c = false) :
    firstNonSpace (ws ++ c :: r) = some c := by
  induction ws with
  | nil => simp [firstNonSpace, List.dropWhile, hc]
  | cons w ws ih =>
    simp only [List.all_cons, Bool.and_eq_true] at hws
    have := ih hws.2
    simpa [firstNonSpace, List.dropWhile, hws.1] using this

/-! ### Evaluation -/

theorem wrap64_of_inInt64 (x : Int) (h : inInt64 x = true) : wrap64 x = x := by
  simp only [inInt64, INT64_MIN, INT64_MAX, Bool.and_eq_true, decide_eq_true_eq] at h
  simp only [wrap64]
  omega

theorem wrap64_spec (y : Int) :
    inInt64 (wrap64 y) = true ∧ (18446744073709551616 : Int) ∣ (wrap64 y - y) := by
  constructor
  · simp only [inInt64, wrap64, INT64_MIN, INT64_MAX, Bool.and_eq_true, decide_eq_true_eq]
    omega
  · simp only [wrap64]
    omega

theorem tdiv_eq_truncQuot (a b : Int) : Int.tdiv a b = truncQuot a b := by
  unfold truncQuot
  cases a with
  | ofNat m =>
    cases b with
    | ofNat n =>
      cases m with
      | zero => simp
      | succ m =>
        cases n with
        | zero => simp
        | succ n =>
          show Int.ofNat ((m + 1) / (n + 1)) = 1 * 1 * Int.ofNat ((m + 1) / (n + 1))
          rw [Int.one_mul, Int.one_mul]
    | negSucc n =>
      cases m with
      | zero => simp
      | succ m =>
        show -Int.ofNat ((m + 1) / (n + 1)) = 1 * (-1) * Int.ofNat ((m + 1) / (n + 1))
        rw [Int.one_mul, Int.neg_mul, Int.one_mul]
  | negSucc m =>
    cases b with
    | ofNat n =>
      cases n with
      | zero => simp
      | succ n =>
        show -Int.ofNat ((m + 1) / (n + 1)) = (-1) * 1 * Int.ofNat ((m + 1) / (n + 1))
        rw [Int.mul_one, Int.neg_mul, Int.one_mul]
    | negSucc n =>
      show Int.ofNat ((m + 1) / (n + 1)) = (-1) * (-1) * Int.ofNat ((m + 1) / (n + 1))
      rw [Int.neg_mul_neg, Int.one_mul, Int.one_mul]

/-- `Evaluate` returns or runs into undefined behaviour; it neither raises nor loops. -/
theorem Evaluate_ret_or_undefined (t : Expression) :
    (∃ v, Evaluate t = .ret v) ∨ (∃ u, Evaluate t = .undefined u) := by
  induction t with
  | null => exact .inr ⟨_, rfl⟩
  | Constant v => exact .inl ⟨_, rfl⟩
  | BinOperation l r op ihl ihr =>
    simp only [Evaluate]
    rcases ihl with ⟨a, ha⟩ | ⟨u, hu⟩
    · rcases ihr with ⟨b, hb⟩ | ⟨w, hw⟩
      · simp only [ha, hb, Outcome.bind, div64]
        repeat' split
        all_goals first
          | exact .inl ⟨_, rfl⟩
          | exact .inr ⟨_, rfl⟩
      · simp only [ha, hw, Outcome.bind]
        repeat' split
        all_goals first
          | exact .inl ⟨_, rfl⟩
          | exact .inr ⟨_, rfl⟩
    · simp only [hu, Outcome.bind]
      repeat' split
      all_goals first
        | exact .inl ⟨_, rfl⟩
        | exact .inr ⟨_, rfl⟩
  | UnaryOperation r ih =>
    simp only [Evaluate]
    rcases ih with ⟨a, ha⟩ | ⟨u, hu⟩
    · exact .inl ⟨_, by rw [ha]; rfl⟩
    · exact .inr ⟨_, by rw [hu]; rfl⟩

theorem Evaluate_not_raised (t : Expression) : ∀ e, Evaluate t ≠ .raised e := by
  intro e h
  rcases Evaluate_ret_or_undefined t with ⟨v, hv⟩ | ⟨u, hu⟩
  · rw [hv] at h; cases h
  · rw [hu] at h; cases h

theorem Evaluate_zero_divisor (t : Expression) (hops : t.opsKnown = true)
    (hz : t.hasZeroDivisor = true) : ∃ u, Evaluate t = .undefined u := by
  induction t with
  | null => simp [Expression.hasZeroDivisor] at hz
  | Constant v => simp [Expression.hasZeroDivisor] at hz
  | UnaryOperation r ih =>
    obtain ⟨u, hu⟩ := ih hops hz
    exact ⟨u, by simp only [Evaluate, hu]; rfl⟩
  | BinOperation l r op ihl ihr =>
    simp only [Expression.opsKnown, Bool.and_eq_true, Bool.or_eq_true] at hops
    simp only [Expression.hasZeroDivisor, Bool.or_eq_true, Bool.and_eq_true, beq_iff_eq,
      decide_eq_true_eq] at hz
    obtain ⟨⟨hop, hol⟩, hor⟩ := hops
    have hop' : op = '+' ∨ op = '-' ∨ op = '*' ∨ op = '/' := by
      simp only [isAddOp, isMulOp, Bool.or_eq_true, beq_iff_eq] at hop
      tauto
    -- an operand that does not return makes the node not return
    have key : ((∃ u, Evaluate l = .undefined u) ∨ (∃ u, Evaluate r = .undefined u)) →
        ∃ u, Evaluate (.BinOperation l r op) = .undefined u := by
      intro h
      rcases Evaluate_ret_or_undefined l with ⟨a, ha⟩ | ⟨u, hu⟩
      · rcases h with ⟨u, hu⟩ | ⟨u, hu⟩
        · rw [ha] at hu; cases hu
        · rcases hop' with h | h | h | h <;> subst h <;>
            exact ⟨u, by simp [Evaluate, ha, hu, Outcome.bind]⟩
      · rcases hop' with h | h | h | h <;> subst h <;>
          exact ⟨u, by simp [Evaluate, hu, Outcome.bind]⟩
    rcases hz with (⟨hdiv, hr0⟩ | hl) | hr
    · subst hdiv
      rcases Evaluate_ret_or_undefined l with ⟨a, ha⟩ | ⟨u, hu⟩
      · exact ⟨.divByZero, by simp [Evaluate, ha, hr0, Outcome.bind, div64]⟩
      · exact key (.inl ⟨u, hu⟩)
    · exact key (.inl (ihl hol hl))
    · exact key (.inr (ihr hor hr))

theorem Evaluate_tree (s : Syn) (hv : s.valid = true) (hs : s.safe = true) :
    Evaluate s.tree = .ret s.value := by
  induction s with
  | num ws ds => rfl
  | paren ws1 e ws2 ih =>
    simp only [Syn.valid, Bool.and_eq_true] at hv
    exact ih hv.2 hs
  | neg ws f ih =>
    simp only [Syn.valid, Bool.and_eq_true] at hv
    simp only [Syn.safe, Bool.and_eq_true] at hs
    have hw := wrap64_of_inInt64 _ hs.2
    simp only [Syn.value] at hw
    simp only [Syn.tree, Evaluate, ih hv.1.2 hs.1, Outcome.bind_ret, Syn.value]
    rw [show f.value * (-1) = -f.value by ring, hw]
  | bin l ws op r ihl ihr =>
    simp only [Syn.valid, Bool.and_eq_true, Bool.or_eq_true, decide_eq_true_eq] at hv
    simp only [Syn.safe, Bool.and_eq_true, Bool.or_eq_true, decide_eq_true_eq, bne_iff_ne] at hs
    obtain ⟨⟨⟨-, hvl⟩, hvr⟩, hops⟩ := hv
    obtain ⟨⟨⟨hsl, hsr⟩, hz⟩, hr⟩ := hs
    have hw := wrap64_of_inInt64 _ hr
    have hop : op = '+' ∨ op = '-' ∨ op = '*' ∨ op = '/' := by
      rcases hops with h | h
      · have := h.1.1; simp [isMulOp] at this; tauto
      · have := h.1; simp [isAddOp] at this; tauto
    simp only [Syn.tree, Evaluate, ihl hvl hsl, ihr hvr hsr, Outcome.bind_ret]
    rcases hop with h | h | h | h <;> subst h
    · simpa [Syn.value] using hw
    · simpa [Syn.value] using hw
    · simpa [Syn.value] using hw
    · have hz' : r.value ≠ 0 := by
        rcases hz with h | h
        · exact absurd rfl h
        · exact h
      simp only [Syn.value] at hr ⊢
      simp only [show ('/' : Char) ≠ '+' by decide, show ('/' : Char) ≠ '-' by decide,
        show ('/' : Char) ≠ '*' by decide, if_false, div64, hz'] at hr ⊢
      have hne : ¬(l.value = INT64_MIN ∧ r.value = -1) := by
        rintro ⟨h1, h2⟩
        rw [h1, h2] at hr
        revert hr
        decide
      rw [if_neg hne, tdiv_eq_truncQuot]
      simp

/-! ### Equations of the parser functions -/

theorem Multiplicate_number (n : Nat) (token : Tokenizer) (h : token.type_ = .kNumber) :
    Multiplicate (n + 1) token
      = token.Consume.bind fun t1 => .ret (.Constant token.number_, t1) := by
  rw [Multiplicate]; simp [h]

theorem Multiplicate_paren (n : Nat) (token : Tokenizer) (h : token.type_ = .kSymbol)
    (hs : token.symbol_ = '(') :
    Multiplicate (n + 1) token
      = token.Consume.bind fun t1 => (ParseExpression n t1).bind fun r =>
          r.2.Consume.bind fun t3 => .ret (r.1, t3) := by
  rw [Multiplicate]; simp [h, hs]

theorem Multiplicate_minus (n : Nat) (token : Tokenizer) (h : token.type_ = .kSymbol)
    (hs : token.symbol_ = '-') :
    Multiplicate (n + 1) token
      = token.Consume.bind fun t1 => (Multiplicate n t1).bind fun r =>
          .ret (.UnaryOperation r.1, r.2) := by
  rw [Multiplicate]; simp [h, hs]

theorem Multiplicate_other (n : Nat) (token : Tokenizer)
    (h : token.type_ = .kEnd ∨
      (token.type_ = .kSymbol ∧ token.symbol_ ≠ '(' ∧ token.symbol_ ≠ '-')) :
    Multiplicate (n + 1) token = .ret (.null, token) := by
  rw [Multiplicate]
  rcases h with h | ⟨h, h1, h2⟩ <;> simp [h, *]

theorem ItemLoop_op (n : Nat) (ret : Expression) (token : Tokenizer)
    (h : token.type_ = .kSymbol) (hs : token.symbol_ = '*' ∨ token.symbol_ = '/') :
    ItemLoop (n + 1) ret token
      = token.Consume.bind fun t1 => (Multiplicate n t1).bind fun r =>
          ItemLoop n (.BinOperation ret r.1 token.symbol_) r.2 := by
  rw [ItemLoop]; simp [h, hs]

theorem ItemLoop_exit (n : Nat) (ret : Expression) (token : Tokenizer)
    (h : ¬(token.type_ = .kSymbol ∧ (token.symbol_ = '*' ∨ token.symbol_ = '/'))) :
    ItemLoop (n + 1) ret token = .ret (ret, token) := by
  rw [ItemLoop]; simp [h]

theorem Item_succ (n : Nat) (token : Tokenizer) :
    Item (n + 1) token = (Multiplicate n token).bind fun r => ItemLoop n r.1 r.2 := by
  rw [Item]

theorem ParseLoop_op (n : Nat) (ret : Expression) (token : Tokenizer)
    (h : token.type_ = .kSymbol) (hs : token.symbol_ = '+' ∨ token.symbol_ = '-') :
    ParseLoop (n + 1) ret token
      = token.Consume.bind fun t1 => (Item n t1).bind fun r =>
          ParseLoop n (.BinOperation ret r.1 token.symbol_) r.2 := by
  rw [ParseLoop]; simp [h, hs]

theorem ParseLoop_exit (n : Nat) (ret : Expression) (token : Tokenizer)
    (h : ¬(token.type_ = .kSymbol ∧ (token.symbol_ = '+' ∨ token.symbol_ = '-'))) :
    ParseLoop (n + 1) ret token = .ret (ret, token) := by
  rw [ParseLoop]; simp [h]

theorem ParseExpression_succ (n : Nat) (token : Tokenizer) :
    ParseExpression (n + 1) token
      = (Item n token).bind fun r => ParseLoop n r.1 r.2 := by
  rw [ParseExpression]

theorem EvaluateExpression_eq (expression : String) :
    EvaluateExpression expression = (parseInput expression).bind fun r => Evaluate r.1 := by
  simp only [EvaluateExpression, parseInput, Outcome.bind_assoc]

/-! ### The parser never raises and never exhausts its budget -/

theorem parser_not_raised (n : Nat) :
    (∀ t e, Multiplicate n t ≠ .raised e) ∧
    (∀ r t e, ItemLoop n r t ≠ .raised e) ∧
    (∀ t e, Item n t ≠ .raised e) ∧
    (∀ r t e, ParseLoop n r t ≠ .raised e) ∧
    (∀ t e, ParseExpression n t ≠ .raised e) := by
  induction n with
  | zero =>
    refine ⟨?_, ?_, ?_, ?_, ?_⟩ <;> intros <;> simp [Multiplicate, ItemLoop, Item, ParseLoop, ParseExpression]
  | succ n ih =>
    obtain ⟨hM, hIL, hI, hPL, hPE⟩ := ih
    have ret_ok : ∀ (p : Parsed) e, (Outcome.ret p : Outcome Parsed) ≠ .raised e := by
      intro p e h; cases h
    refine ⟨?_, ?_, ?_, ?_, ?_⟩
    · intro t
      rw [Multiplicate]
      split
      · exact Outcome.bind_not_raised _ _ (Consume_not_raised t) fun _ => ret_ok _
      · split
        · exact Outcome.bind_not_raised _ _ (Consume_not_raised t) fun t1 =>
            Outcome.bind_not_raised _ _ (hPE t1) fun r =>
              Outcome.bind_not_raised _ _ (Consume_not_raised r.2) fun _ => ret_ok _
        · split
          · exact Outcome.bind_not_raised _ _ (Consume_not_raised t) fun t1 =>
              Outcome.bind_not_raised _ _ (hM t1) fun _ => ret_ok _
          · exact ret_ok _
    · intro r t
      rw [ItemLoop]
      split
      · exact Outcome.bind_not_raised _ _ (Consume_not_raised t) fun t1 =>
          Outcome.bind_not_raised _ _ (hM t1) fun _ => hIL _ _
      · exact ret_ok _
    · intro t
      rw [Item]
      exact Outcome.bind_not_raised _ _ (hM t) fun _ => hIL _ _
    · intro r t
      rw [ParseLoop]
      split
      · exact Outcome.bind_not_raised _ _ (Consume_not_raised t) fun t1 =>
          Outcome.bind_not_raised _ _ (hI t1) fun _ => hPL _ _
      · exact ret_ok _
    · intro t
      rw [ParseExpression]
      exact Outcome.bind_not_raised _ _ (hI t) fun _ => hPL _ _

theorem EvaluateExpression_not_raised (expression : String) (e : ErrorKind) :
    EvaluateExpression expression ≠ .raised e := by
  simp only [EvaluateExpression, Tokenizer.new]
  exact Outcome.bind_not_raised _ _ (Consume_not_raised _) (fun t1 =>
    Outcome.bind_not_raised _ _ ((parser_not_raised _).2.2.2.2 t1) fun r =>
      Evaluate_not_raised r.1) e

theorem Within_bind {α : Type} (x : Outcome α) (f : α → Outcome Parsed) (b : Nat)
    (hx : x ≠ .fuelOut) (hf : ∀ a, x = .ret a → Within (f a) b) : Within (x.bind f) b := by
  cases x with
  | ret a => exact hf a rfl
  | raised e => exact ⟨fun h => (by cases h), fun r h => (by cases h)⟩
  | undefined u => exact ⟨fun h => (by cases h), fun r h => (by cases h)⟩
  | spins => exact ⟨fun h => (by cases h), fun r h => (by cases h)⟩
  | fuelOut => exact absurd rfl hx

theorem Within_ret (r : Parsed) (b : Nat) (h : r.2.measure ≤ b) : Within (.ret r) b :=
  ⟨fun h0 => (by cases h0), fun r1 h1 => (by cases h1; exact h)⟩

theorem Within_mono {o : Outcome Parsed} {b c : Nat} (h : Within o b) (hbc : b ≤ c) :
    Within o c :=
  ⟨h.1, fun r hr => Nat.le_trans (h.2 r hr) hbc⟩

theorem avail_le_measure (t : Tokenizer) : t.in_.avail ≤ t.measure := by
  simp only [Tokenizer.measure]; omega

theorem measure_of_live (t : Tokenizer) (h : t.live = true) :
    t.measure = t.in_.avail + 1 := by
  simp [Tokenizer.measure, h]

theorem live_of_symbol (t : Tokenizer) (h : t.type_ = .kSymbol)
    (hs : t.symbol_ = '(' ∨ t.symbol_ = '-' ∨ t.symbol_ = '+' ∨ t.symbol_ = '*' ∨
      t.symbol_ = '/') : t.live = true := by
  simp only [Tokenizer.live, h, beq_self_eq_true, Bool.true_and, Bool.or_eq_true, beq_iff_eq]
  tauto

/-- With a budget of three units per unit of measure the parser functions never
exhaust it, and they never hand back a tokenizer of larger measure. -/
theorem parser_within (n : Nat) :
    (∀ t, 3 * t.measure + 1 ≤ n → Within (Multiplicate n t) t.measure) ∧
    (∀ r t, 3 * t.measure + 1 ≤ n → Within (ItemLoop n r t) t.measure) ∧
    (∀ t, 3 * t.measure + 2 ≤ n → Within (Item n t) t.measure) ∧
    (∀ r t, 3 * t.measure + 2 ≤ n → Within (ParseLoop n r t) t.measure) ∧
    (∀ t, 3 * t.measure + 3 ≤ n → Within (ParseExpression n t) t.measure) := by
  induction n with
  | zero =>
    refine ⟨?_, ?_, ?_, ?_, ?_⟩ <;> intros <;> omega
  | succ n ih =>
    obtain ⟨hM, hIL, hI, hPL, hPE⟩ := ih
    refine ⟨?_, ?_, ?_, ?_, ?_⟩
    · intro t hn
      rw [Multiplicate]
      split
      · exact Within_bind _ _ _ (Consume_not_fuelOut t) fun t1 h1 =>
          Within_ret _ _ (Nat.le_trans (Consume_measure t t1 h1) (avail_le_measure t))
      · split
        · rename_i hc
          have hm := measure_of_live t (live_of_symbol t hc.1 (.inl hc.2))
          refine Within_bind _ _ _ (Consume_not_fuelOut t) fun t1 h1 => ?_
          have h2 := Consume_measure t t1 h1
          have h3 := hPE t1 (by omega)
          refine Within_bind _ _ _ h3.1 fun r hr => ?_
          have h4 := h3.2 r hr
          refine Within_bind _ _ _ (Consume_not_fuelOut r.2) fun t3 ht3 => ?_
          have h5 := Consume_measure r.2 t3 ht3
          have h6 := avail_le_measure r.2
          exact Within_ret _ _ (by simp only; omega)
        · split
          · rename_i hc
            have hm := measure_of_live t (live_of_symbol t hc.1 (.inr (.inl hc.2)))
            refine Within_bind _ _ _ (Consume_not_fuelOut t) fun t1 h1 => ?_
            have h2 := Consume_measure t t1 h1
            have h3 := hM t1 (by omega)
            refine Within_bind _ _ _ h3.1 fun r hr => ?_
            have h4 := h3.2 r hr
            exact Within_ret _ _ (by simp only; omega)
          · exact Within_ret _ _ (Nat.le_refl _)
    · intro r t hn
      rw [ItemLoop]
      split
      · rename_i hc
        have hm := measure_of_live t (live_of_symbol t hc.1 (by tauto))
        refine Within_bind _ _ _ (Consume_not_fuelOut t) fun t1 h1 => ?_
        have h2 := Consume_measure t t1 h1
        have h3 := hM t1 (by omega)
        refine Within_bind _ _ _ h3.1 fun r1 hr => ?_
        have h4 := h3.2 r1 hr
        exact Within_mono (hIL _ r1.2 (by omega)) (by omega)
      · exact Within_ret _ _ (Nat.le_refl _)
    · intro t hn
      rw [Item]
      have h3 := hM t (by omega)
      refine Within_bind _ _ _ h3.1 fun r1 hr => ?_
      have h4 := h3.2 r1 hr
      exact Within_mono (hIL _ r1.2 (by omega)) h4
    · intro r t hn
      rw [ParseLoop]
      split
      · rename_i hc
        have hm := measure_of_live t (live_of_symbol t hc.1 (by tauto))
        refine Within_bind _ _ _ (Consume_not_fuelOut t) fun t1 h1 => ?_
        have h2 := Consume_measure t t1 h1
        have h3 := hI t1 (by omega)
        refine Within_bind _ _ _ h3.1 fun r1 hr => ?_
        have h4 := h3.2 r1 hr
        exact Within_mono (hPL _ r1.2 (by omega)) (by omega)
      · exact Within_ret _ _ (Nat.le_refl _)
    · intro t hn
      rw [ParseExpression]
      have h3 := hI t (by omega)
      refine Within_bind _ _ _ h3.1 fun r1 hr => ?_
      have h4 := h3.2 r1 hr
      exact Within_mono (hPL _ r1.2 (by omega)) h4

/-- The budget `parseFuel` is never exhausted: `fuelOut` is not an outcome of
`parseInput`, nor of `EvaluateExpression`. -/
theorem parseInput_not_fuelOut (expression : String) :
    parseInput expression ≠ .fuelOut := by
  simp only [parseInput, Tokenizer.new]
  generalize ht0 : (⟨IStream.ofString expression, .kEnd, 0, Char.ofNat 0⟩ : Tokenizer) = t0
  cases hc : t0.Consume with
  | ret t1 =>
    have h1 := Consume_measure t0 t1 hc
    have h2 : t0.in_.avail ≤ expression.length := by
      rw [← ht0]
      simp [IStream.avail, IStream.ofString, IStream.good]
    exact ((parser_within _).2.2.2.2 t1 (by simp only [parseFuel]; omega)).1
  | raised e => intro h; cases h
  | undefined u => intro h; cases h
  | spins => intro h; cases h
  | fuelOut => exact absurd hc (Consume_not_fuelOut t0)

theorem EvaluateExpression_not_fuelOut (expression : String) :
    EvaluateExpression expression ≠ .fuelOut := by
  rw [EvaluateExpression_eq]
  cases hp : parseInput expression with
  | ret r =>
    intro h
    rcases Evaluate_ret_or_undefined r.1 with ⟨v, hv⟩ | ⟨u, hu⟩
    · simp only [Outcome.bind] at h; rw [hv] at h; cases h
    · simp only [Outcome.bind] at h; rw [hu] at h; cases h
  | raised e => intro h; cases h
  | undefined u => intro h; cases h
  | spins => intro h; cases h
  | fuelOut => exact absurd hp (parseInput_not_fuelOut expression)

/-! ### The parser follows the grammar -/

theorem print_pos (s : Syn) (h : s.valid = true) : 1 ≤ s.print.length := by
  cases s with
  | num ws ds =>
    cases ds with
    | nil => simp [Syn.valid, isLiteral] at h
    | cons d ds => simp [Syn.print]; omega
  | paren ws1 e ws2 => simp [Syn.print]; omega
  | neg ws f => simp [Syn.print]; omega
  | bin l ws op r => simp [Syn.print]; omega

theorem mulOps_le (s : Syn) (h : s.valid = true) : 2 * s.mulOps + 1 ≤ s.print.length := by
  induction s with
  | num ws ds => simpa [Syn.mulOps] using print_pos _ h
  | paren ws1 e ws2 _ => simpa [Syn.mulOps] using print_pos _ h
  | neg ws f _ => simpa [Syn.mulOps] using print_pos _ h
  | bin l ws op r ihl _ =>
    simp only [Syn.valid, Bool.and_eq_true] at h
    have hl := ihl h.1.1.2
    have hr := print_pos r h.1.2
    simp only [Syn.mulOps, Syn.print, List.length_append, List.length_cons]
    split <;> omega

theorem addOps_le (s : Syn) (h : s.valid = true) : 2 * s.addOps + 1 ≤ s.print.length := by
  induction s with
  | num ws ds => simpa [Syn.addOps] using print_pos _ h
  | paren ws1 e ws2 _ => simpa [Syn.addOps] using print_pos _ h
  | neg ws f _ => simpa [Syn.addOps] using print_pos _ h
  | bin l ws op r ihl _ =>
    simp only [Syn.valid, Bool.and_eq_true] at h
    have hl := ihl h.1.1.2
    have hr := print_pos r h.1.2
    simp only [Syn.addOps, Syn.print, List.length_append, List.length_cons]
    split <;> omega

theorem FactorOk_num (ws ds : List Char) (h : (Syn.num ws ds).valid = true) :
    FactorOk (.num ws ds) := by
  intro k t0 n hk hp hn
  simp only [Syn.valid, Bool.and_eq_true] at h
  simp only [Syn.print, List.append_assoc] at hp
  obtain ⟨t1, h1, h2, h3, h4⟩ := Consume_number t0 ws ds k hp h.1 h.2
    (hk.resolve_left (by simp [Syn.endsClosed]))
  refine ⟨t1, h4, ?_⟩
  obtain ⟨n, rfl⟩ : ∃ n', n = n' + 1 := ⟨n - 1, by omega⟩
  rw [h1, Outcome.bind_ret, Multiplicate_number n t1 h2, h3]
  rfl

theorem FactorOk_neg (ws : List Char) (f : Syn) (h : (Syn.neg ws f).valid = true)
    (ih : FactorOk f) : FactorOk (.neg ws f) := by
  intro k t0 n hk hp hn
  simp only [Syn.valid, Bool.and_eq_true] at h
  simp only [Syn.print, List.append_assoc, List.cons_append] at hp
  obtain ⟨t1, h1, h2, h3, h4⟩ :=
    Consume_symbol t0 ws '-' (f.print ++ k) hp h.1.1 (by decide) (by decide)
  obtain ⟨n, rfl⟩ : ∃ n', n = n' + 1 := ⟨n - 1, by omega⟩
  simp only [Syn.print, List.length_append, List.length_cons] at hn
  obtain ⟨t2, h5, h6⟩ := ih k t1 n hk h4 (by omega)
  refine ⟨t2, h5, ?_⟩
  rw [h1, Outcome.bind_ret, Multiplicate_minus n t1 h2 h3, ← Outcome.bind_assoc, h6,
    Outcome.bind_assoc]
  rfl

theorem TermOk_of_FactorOk (s : Syn) (hl : s.level = 0) (h : FactorOk s) : TermOk s := by
  intro k t0 m hk hp hm
  have h0 : s.mulOps = 0 := by
    cases s with
    | bin l ws op r => simp only [Syn.level] at hl; split at hl <;> omega
    | num ws ds => rfl
    | paren ws1 e ws2 => rfl
    | neg ws f => rfl
  rw [h0] at hm ⊢
  obtain ⟨t1, h1, h2⟩ := h k t0 m hk hp (by omega)
  refine ⟨t1, h1, ?_⟩
  have : Item (m + 1 + 0) = fun token => (Multiplicate m token).bind fun r => ItemLoop m r.1 r.2 := by
    funext token; exact Item_succ m token
  rw [this, ← Outcome.bind_assoc, h2, Outcome.bind_assoc]
  rfl

/-- A whole term: `Item` returns `s.tree` when the token after the text is not an
operator of Term. -/
theorem TermOk_whole {s : Syn} (h : TermOk s) (hv : s.valid = true) (k : List Char)
    (t0 : Tokenizer) (n : Nat) (hk : Boundary s k) (h1 : firstNonSpace k ≠ some '*')
    (h2 : firstNonSpace k ≠ some '/') (hp : Pending t0 (s.print ++ k))
    (hn : 3 * s.print.length + 2 ≤ n) :
    ∃ t1, Pending t1 k ∧
      t0.Consume.bind (Item n) = t1.Consume.bind fun t => .ret (s.tree, t) := by
  have hsz := mulOps_le s hv
  obtain ⟨m, rfl⟩ : ∃ m, n = (m + 1) + 1 + s.mulOps := ⟨n - 2 - s.mulOps, by omega⟩
  obtain ⟨t1, h3, h4⟩ := h k t0 (m + 1) hk hp (by omega)
  refine ⟨t1, h3, ?_⟩
  rw [h4]
  apply Outcome.bind_congr
  intro t ht
  apply ItemLoop_exit
  rintro ⟨hty, hsy⟩
  have := Consume_symbol_inv t1 t k h3 ht hty
  rcases hsy with hsy | hsy <;> rw [hsy] at this <;> contradiction

theorem TermOk_bin (l : Syn) (ws : List Char) (op : Char) (r : Syn)
    (hv : (Syn.bin l ws op r).valid = true) (hop : isMulOp op = true)
    (ihl : TermOk l) (ihr : FactorOk r) : TermOk (.bin l ws op r) := by
  intro k t0 m hk hp hm
  simp only [Syn.valid, Bool.and_eq_true] at hv
  have hsz := mulOps_le l hv.1.1.2
  have hrp := print_pos r hv.1.2
  have hop' : op = '*' ∨ op = '/' := by simpa [isMulOp] using hop
  have hsp : isspace op = false := by rcases hop' with h | h <;> subst h <;> decide
  have hdg : isdigit op = false := by rcases hop' with h | h <;> subst h <;> decide
  simp only [Syn.print, Syn.mulOps, hop, if_true, List.length_append, List.length_cons,
    List.append_assoc, List.cons_append] at hp hm ⊢
  obtain ⟨t1, h1, h2⟩ := ihl (ws ++ op :: (r.print ++ k)) t0 (m + 1)
    (.inr (NoDigitHead_spaces_cons ws op _ hv.1.1.1 hdg)) hp (by omega)
  obtain ⟨t2, h3, h4, h5, h6⟩ := Consume_symbol t1 ws op (r.print ++ k) h1 hv.1.1.1 hsp hdg
  obtain ⟨t3, h7, h8⟩ := ihr k t2 m hk h6 (by omega)
  refine ⟨t3, h7, ?_⟩
  have e1 : m + 1 + (l.mulOps + 1) = (m + 1) + 1 + l.mulOps := by omega
  rw [e1, h2, h3, Outcome.bind_ret, ItemLoop_op m l.tree t2 h4 (h5 ▸ hop'),
    ← Outcome.bind_assoc, h8, Outcome.bind_assoc, h5]
  rfl

theorem ExprOk_of_TermOk (s : Syn) (hv : s.valid = true) (hl : s.level ≤ 1) (h : TermOk s) :
    ExprOk s := by
  intro k t0 m hk hf1 hf2 hp hm
  have h0 : s.addOps = 0 := by
    cases s with
    | bin l ws op r =>
      simp only [Syn.level] at hl
      simp only [Syn.addOps]
      split at hl
      · simp [*]
      · omega
    | num ws ds => rfl
    | paren ws1 e ws2 => rfl
    | neg ws f => rfl
  rw [h0] at hm ⊢
  obtain ⟨t1, h1, h2⟩ := TermOk_whole h hv k t0 m hk hf1 hf2 hp (by omega)
  refine ⟨t1, h1, ?_⟩
  have : ParseExpression (m + 1 + 0)
      = fun token => (Item m token).bind fun r => ParseLoop m r.1 r.2 := by
    funext token; exact ParseExpression_succ m token
  rw [this, ← Outcome.bind_assoc, h2, Outcome.bind_assoc]
  rfl

/-- A whole expression: `ParseExpression` returns `s.tree` when the token after the
text is not an operator. -/
theorem ExprOk_whole {s : Syn} (h : ExprOk s) (hv : s.valid = true) (k : List Char)
    (t0 : Tokenizer) (n : Nat) (hk : Boundary s k)
    (hf : ∀ c, firstNonSpace k = some c → isMulOp c = false ∧ isAddOp c = false)
    (hp : Pending t0 (s.print ++ k)) (hn : 3 * s.print.length + 3 ≤ n) :
    ∃ t1, Pending t1 k ∧
      t0.Consume.bind (ParseExpression n) = t1.Consume.bind fun t => .ret (s.tree, t) := by
  have hsz := addOps_le s hv
  obtain ⟨m, rfl⟩ : ∃ m, n = (m + 1) + 1 + s.addOps := ⟨n - 2 - s.addOps, by omega⟩
  have hf1 : firstNonSpace k ≠ some '*' := fun hc => by have := (hf _ hc).1; simp [isMulOp] at this
  have hf2 : firstNonSpace k ≠ some '/' := fun hc => by have := (hf _ hc).1; simp [isMulOp] at this
  obtain ⟨t1, h3, h4⟩ := h k t0 (m + 1) hk hf1 hf2 hp (by omega)
  refine ⟨t1, h3, ?_⟩
  rw [h4]
  apply Outcome.bind_congr
  intro t ht
  apply ParseLoop_exit
  rintro ⟨hty, hsy⟩
  have := (hf _ (Consume_symbol_inv t1 t k h3 ht hty)).2
  rcases hsy with hsy | hsy <;> rw [hsy] at this <;> simp [isAddOp] at this

theorem ExprOk_bin (l : Syn) (ws : List Char) (op : Char) (r : Syn)
    (hv : (Syn.bin l ws op r).valid = true) (hop : isMulOp op = false)
    (ihl : ExprOk l) (ihr : TermOk r) : ExprOk (.bin l ws op r) := by
  intro k t0 m hk hf1 hf2 hp hm
  simp only [Syn.valid, Bool.and_eq_true, hop, Bool.false_and, Bool.false_or,
    decide_eq_true_eq] at hv
  have hsz := addOps_le l hv.1.1.2
  have hrp := print_pos r hv.1.2
  have hop' : op = '+' ∨ op = '-' := by simpa [isAddOp] using hv.2.1
  have hsp : isspace op = false := by rcases hop' with h | h <;> subst h <;> decide
  have hdg : isdigit op = false := by rcases hop' with h | h <;> subst h <;> decide
  have hfn := firstNonSpace_spaces_cons ws op (r.print ++ k) hv.1.1.1 hsp
  simp only [Syn.print, Syn.addOps, hop, List.length_append, List.length_cons,
    List.append_assoc, List.cons_append] at hp hm ⊢
  obtain ⟨t1, h1, h2⟩ := ihl (ws ++ op :: (r.print ++ k)) t0 (m + 1)
    (.inr (NoDigitHead_spaces_cons ws op _ hv.1.1.1 hdg))
    (by rw [hfn]; rcases hop' with h | h <;> subst h <;> decide)
    (by rw [hfn]; rcases hop' with h | h <;> subst h <;> decide) hp (by simp at hm ⊢; omega)
  obtain ⟨t2, h3, h4, h5, h6⟩ := Consume_symbol t1 ws op (r.print ++ k) h1 hv.1.1.1 hsp hdg
  obtain ⟨t3, h7, h8⟩ := TermOk_whole ihr hv.1.2 k t2 m hk hf1 hf2 h6 (by simp at hm ⊢; omega)
  refine ⟨t3, h7, ?_⟩
  have e1 : m + 1 + (if false = true then 0 else l.addOps + 1) = (m + 1) + 1 + l.addOps := by
    simp; omega
  rw [e1, h2, h3, Outcome.bind_ret, ParseLoop_op m l.tree t2 h4 (h5 ▸ hop'),
    ← Outcome.bind_assoc, h8, Outcome.bind_assoc, h5]
  rfl

/-- A group `( e )` at a Factor position: `Multiplicate` returns the tree of `e` and
has advanced over `)`, whatever text `k` follows. -/
theorem Multiplicate_group (ws1 : List Char) (e : Syn) (ws2 k : List Char)
    (t0 : Tokenizer) (n : Nat) (hv : e.valid = true) (hw1 : ws1.all isspace = true)
    (hw2 : ws2.all isspace = true) (ih : ExprOk e)
    (hp : Pending t0 (ws1 ++ '(' :: (e.print ++ (ws2 ++ ')' :: k))))
    (hn : 3 * e.print.length + 4 ≤ n) :
    ∃ t1, Pending t1 k ∧
      t0.Consume.bind (Multiplicate n) = t1.Consume.bind fun t => .ret (e.tree, t) := by
  obtain ⟨t1, h1, h2, h3, h4⟩ :=
    Consume_symbol t0 ws1 '(' (e.print ++ (ws2 ++ ')' :: k)) hp hw1 (by decide) (by decide)
  obtain ⟨n, rfl⟩ : ∃ n', n = n' + 1 := ⟨n - 1, by omega⟩
  obtain ⟨t2, h5, h6⟩ := ExprOk_whole ih hv (ws2 ++ ')' :: k) t1 n
    (.inr (NoDigitHead_spaces_cons ws2 ')' k hw2 (by decide)))
    (by
      intro c hc
      rw [firstNonSpace_spaces_cons ws2 ')' k hw2 (by decide)] at hc
      cases hc
      exact ⟨by decide, by decide⟩)
    h4 (by omega)
  obtain ⟨t3, h7, -, -, h8⟩ := Consume_symbol t2 ws2 ')' k h5 hw2 (by decide) (by decide)
  refine ⟨t3, h8, ?_⟩
  rw [h1, Outcome.bind_ret, Multiplicate_paren n t1 h2 h3, ← Outcome.bind_assoc, h6, h7]
  rfl

theorem FactorOk_paren (ws1 : List Char) (e : Syn) (ws2 : List Char)
    (hv : (Syn.paren ws1 e ws2).valid = true) (ih : ExprOk e) :
    FactorOk (.paren ws1 e ws2) := by
  intro k t0 n _ hp hn
  simp only [Syn.valid, Bool.and_eq_true] at hv
  simp only [Syn.print, List.append_assoc, List.cons_append, List.length_append,
    List.length_cons, List.nil_append, List.length_nil] at hp hn
  exact Multiplicate_group ws1 e ws2 k t0 n hv.2 hv.1.1 hv.1.2 ih hp (by omega)

/-- The parser functions follow the grammar on every valid syntax tree. -/
theorem parser_follows_grammar (s : Syn) (hv : s.valid = true) :
    (s.level = 0 → FactorOk s) ∧ (s.level ≤ 1 → TermOk s) ∧ ExprOk s := by
  induction s with
  | num ws ds =>
    have hf := FactorOk_num ws ds hv
    have ht := TermOk_of_FactorOk _ (by rfl) hf
    exact ⟨fun _ => hf, fun _ => ht, ExprOk_of_TermOk _ hv (by simp [Syn.level]) ht⟩
  | paren ws1 e ws2 ih =>
    have hve : e.valid = true := by
      simp only [Syn.valid, Bool.and_eq_true] at hv; exact hv.2
    have hf := FactorOk_paren ws1 e ws2 hv (ih hve).2.2
    have ht := TermOk_of_FactorOk _ (by rfl) hf
    exact ⟨fun _ => hf, fun _ => ht, ExprOk_of_TermOk _ hv (by simp [Syn.level]) ht⟩
  | neg ws f ih =>
    have hvf : f.valid = true ∧ f.level = 0 := by
      simp only [Syn.valid, Bool.and_eq_true, beq_iff_eq] at hv; exact ⟨hv.1.2, hv.2⟩
    have hf := FactorOk_neg ws f hv ((ih hvf.1).1 hvf.2)
    have ht := TermOk_of_FactorOk _ (by rfl) hf
    exact ⟨fun _ => hf, fun _ => ht, ExprOk_of_TermOk _ hv (by simp [Syn.level]) ht⟩
  | bin l ws op r ihl ihr =>
    have hv' := hv
    simp only [Syn.valid, Bool.and_eq_true, Bool.or_eq_true, decide_eq_true_eq,
      beq_iff_eq] at hv'
    obtain ⟨⟨⟨-, hvl⟩, hvr⟩, hops⟩ := hv'
    cases hop : isMulOp op
    · have hops' : r.level ≤ 1 := by
        rcases hops with h | h
        · rw [hop] at h; simp at h
        · exact h.2
      have he := ExprOk_bin l ws op r hv hop (ihl hvl).2.2 ((ihr hvr).2.1 hops')
      refine ⟨fun h => ?_, fun h => ?_, he⟩ <;> simp [Syn.level, hop] at h
    · have hops' : l.level ≤ 1 ∧ r.level = 0 := by
        rcases hops with h | h
        · exact ⟨h.1.2, h.2⟩
        · have : isAddOp op = false := by
            have : op = '*' ∨ op = '/' := by simpa [isMulOp] using hop
            rcases this with h | h <;> subst h <;> decide
          rw [this] at h; simp at h
      have ht := TermOk_bin l ws op r hv hop ((ihl hvl).2.1 hops'.1) ((ihr hvr).1 hops'.2)
      refine ⟨fun h => ?_, fun _ => ht,
        ExprOk_of_TermOk _ hv (by simp [Syn.level, hop]) ht⟩
      simp [Syn.level, hop] at h

theorem parseInput_print (s : Syn) (hv : s.valid = true) :
    ∃ t, parseInput (String.mk s.print) = .ret (s.tree, t) ∧ t.type_ = .kEnd := by
  have hp : Pending ⟨⟨s.print, false, false⟩, .kEnd, 0, Char.ofNat 0⟩ (s.print ++ []) := by
    simp [Pending]
  obtain ⟨t1, h1, h2⟩ := ExprOk_whole (parser_follows_grammar s hv).2.2 hv [] _
    (parseFuel s.print.length) (.inr (by intro c r h; cases h)) (by intro c h; cases h) hp
    (by simp only [parseFuel]; omega)
  obtain ⟨t2, h3, h4⟩ := Consume_end t1 h1
  refine ⟨t2, ?_, h4⟩
  rw [h3] at h2
  exact h2

theorem chain_print (first : Syn) (links : List Link) :
    (chain first links).print = chainText first links := by
  induction links generalizing first with
  | nil => simp [chain, chainText, linksText]
  | cons x links ih =>
    have := ih (.bin first x.ws x.op x.operand)
    simp only [chain, List.foldl_cons, chainText, linksText, Link.text, Syn.print,
      List.append_assoc, List.cons_append] at this ⊢
    exact this

theorem chain_tree (first : Syn) (links : List Link) :
    (chain first links).tree = leftNested first.tree links := by
  induction links generalizing first with
  | nil => rfl
  | cons x links ih =>
    have := ih (.bin first x.ws x.op x.operand)
    simpa only [chain, leftNested, List.foldl_cons, Syn.tree] using this

theorem termChain_valid (first : Syn) (links : List Link) (hv : first.valid = true)
    (hl : first.level ≤ 1)
    (h : (links.all fun x =>
      x.ws.all isspace && isMulOp x.op && x.operand.valid && x.operand.level == 0) = true) :
    (chain first links).valid = true := by
  induction links generalizing first with
  | nil => exact hv
  | cons x links ih =>
    simp only [List.all_cons, Bool.and_eq_true, beq_iff_eq] at h
    obtain ⟨⟨⟨⟨h1, h2⟩, h3⟩, h4⟩, h5⟩ := h
    apply ih (.bin first x.ws x.op x.operand)
    · simp [Syn.valid, h1, h2, h3, h4, hv, hl]
    · simp [Syn.level, h2]
    · exact h5

theorem exprChain_valid (first : Syn) (links : List Link) (hv : first.valid = true)
    (h : (links.all fun x =>
      x.ws.all isspace && isAddOp x.op && x.operand.valid && decide (x.operand.level ≤ 1)) = true) :
    (chain first links).valid = true := by
  induction links generalizing first with
  | nil => exact hv
  | cons x links ih =>
    simp only [List.all_cons, Bool.and_eq_true, decide_eq_true_eq] at h
    obtain ⟨⟨⟨⟨h1, h2⟩, h3⟩, h4⟩, h5⟩ := h
    apply ih (.bin first x.ws x.op x.operand)
    · simp [Syn.valid, h1, h2, h3, h4, hv]
    · exact h5

theorem negated_print (wss : List (List Char)) (f : Syn) :
    (negated wss f).print = minusText wss ++ f.print := by
  induction wss with
  | nil => rfl
  | cons ws wss ih =>
    simp only [negated, List.foldr_cons, Syn.print, minusText, List.append_assoc,
      List.cons_append] at ih ⊢
    rw [ih]

theorem negated_tree (wss : List (List Char)) (f : Syn) :
    (negated wss f).tree = nestedUnary wss.length f.tree := by
  induction wss with
  | nil => rfl
  | cons ws wss ih =>
    simp only [negated, List.foldr_cons, Syn.tree, List.length_cons, nestedUnary] at ih ⊢
    rw [ih]

theorem negated_valid (wss : List (List Char)) (f : Syn)
    (hw : (wss.all fun ws => ws.all isspace) = true) (hv : f.valid = true)
    (hl : f.level = 0) : (negated wss f).valid = true ∧ (negated wss f).level = 0 := by
  induction wss with
  | nil => exact ⟨hv, hl⟩
  | cons ws wss ih =>
    simp only [List.all_cons, Bool.and_eq_true] at hw
    obtain ⟨h1, h2⟩ := ih hw.2
    simp only [negated, List.foldr_cons] at h1 h2 ⊢
    exact ⟨by simp [Syn.valid, hw.1, h1, h2], rfl⟩

theorem strip_level (s : Syn) : s.strip.level = s.level := by
  cases s <;> rfl

theorem strip_tree (s : Syn) : s.strip.tree = s.tree := by
  induction s with
  | num ws ds => rfl
  | paren ws1 e ws2 ih => exact ih
  | neg ws f ih => simp only [Syn.strip, Syn.tree, ih]
  | bin l ws op r ihl ihr => simp only [Syn.strip, Syn.tree, ihl, ihr]

theorem strip_valid (s : Syn) (h : s.valid = true) : s.strip.valid = true := by
  induction s with
  | num ws ds =>
    simp only [Syn.valid, Bool.and_eq_true] at h
    simp [Syn.strip, Syn.valid, h.2]
  | paren ws1 e ws2 ih =>
    simp only [Syn.valid, Bool.and_eq_true] at h
    simp [Syn.strip, Syn.valid, ih h.2]
  | neg ws f ih =>
    simp only [Syn.valid, Bool.and_eq_true] at h
    simp only [Syn.strip, Syn.valid, List.all_nil, Bool.true_and, Bool.and_eq_true,
      strip_level]
    exact ⟨ih h.1.2, h.2⟩
  | bin l ws op r ihl ihr =>
    simp only [Syn.valid, Bool.and_eq_true] at h
    simp only [Syn.strip, Syn.valid, List.all_nil, Bool.true_and, Bool.and_eq_true,
      strip_level]
    exact ⟨⟨ihl h.1.1.2, ihr h.1.2⟩, h.2⟩

/-- Whitespace before the first token and between tokens does not change the result:
a text of the grammar and the same text without its whitespace evaluate alike. -/
theorem EvaluateExpression_strip (s : Syn) (hv : s.valid = true) :
    EvaluateExpression (String.mk s.print) = EvaluateExpression (String.mk s.strip.print) := by
  obtain ⟨t1, h1, -⟩ := parseInput_print s hv
  obtain ⟨t2, h2, -⟩ := parseInput_print s.strip (strip_valid s hv)
  rw [EvaluateExpression_eq, EvaluateExpression_eq, h1, h2, strip_tree]
  rfl

/-! ### Text after an expression -/

/-- A run of digits after whitespace is read as one `Number` token, whatever its
value: the digits are extracted up to the first character that is not a digit. -/
theorem Consume_digit_run (t : Tokenizer) (ws : List Char) (d : Char) (r : List Char)
    (hp : Pending t (ws ++ d :: r)) (hws : ws.all isspace = true) (hd : isdigit d = true) :
    ∃ t1, t.Consume = .ret t1 ∧ t1.type_ = .kNumber ∧ t1.symbol_ = t.symbol_ ∧
      t1.in_.rest = r.dropWhile isdigit := by
  have hsk := skip_pending t ws d r hp hws (isspace_of_isdigit d hd)
  simp only [Tokenizer.Consume, hsk, IStream.eof, Bool.false_eq_true, if_false, hd, if_true,
    IStream.putback, IStream.extractInt64, IStream.good, Bool.not_false, Bool.and_self,
    List.takeWhile, List.dropWhile, List.isEmpty_cons]
  split <;> exact ⟨_, rfl, rfl, rfl, rfl⟩

/-- On pending text with a character that is not whitespace, `Consume` returns: a
`Number` token when that character is a digit, else the `Symbol` token of the
character. -/
theorem Consume_token (t : Tokenizer) (k : List Char) (c : Char) (hp : Pending t k)
    (hc : firstNonSpace k = some c) :
    ∃ t1, t.Consume = .ret t1 ∧
      ((isdigit c = true ∧ t1.type_ = .kNumber) ∨
        (isdigit c = false ∧ t1.type_ = .kSymbol ∧ t1.symbol_ = c)) := by
  obtain ⟨ws, hws, hk⟩ := span_spaces k
  cases hd : k.dropWhile isspace with
  | nil => simp [firstNonSpace, hd] at hc
  | cons x r =>
    have hx : x = c := by simpa [firstNonSpace, hd] using hc
    subst hx
    have hcs : isspace x = false := by
      have := List.head_dropWhile_not isspace k (by simp [hd])
      simpa [hd] using this
    rw [hd] at hk
    have hp' : Pending t (ws ++ x :: r) := by rw [← hk]; exact hp
    cases hdg : isdigit x
    · obtain ⟨t1, h1, h2, h3, -⟩ := Consume_symbol t ws x r hp' hws hcs hdg
      exact ⟨t1, h1, .inr ⟨rfl, h2, h3⟩⟩
    · obtain ⟨t1, h1, h2, -⟩ := Consume_digit_run t ws x r hp' hws hdg
      exact ⟨t1, h1, .inl ⟨rfl, h2⟩⟩

/-- After the text of an expression of the grammar, a first token that is no operator
ends the parse: `parseInput` returns the tree of the expression. -/
theorem parseInput_followed (s : Syn) (k : List Char) (c : Char) (hv : s.valid = true)
    (hb : Boundary s k) (hc : firstNonSpace k = some c) (hm : isMulOp c = false)
    (ha : isAddOp c = false) :
    ∃ t, parseInput (String.mk (s.print ++ k)) = .ret (s.tree, t) := by
  have hp : Pending ⟨⟨s.print ++ k, false, false⟩, .kEnd, 0, Char.ofNat 0⟩ (s.print ++ k) := by
    simp [Pending]
  obtain ⟨t1, h1, h2⟩ := ExprOk_whole (parser_follows_grammar s hv).2.2 hv k _
    (parseFuel (s.print ++ k).length) hb
    (by intro x hx; rw [hc] at hx; cases hx; exact ⟨hm, ha⟩) hp
    (by simp only [parseFuel, List.length_append]; omega)
  obtain ⟨t2, h3, -⟩ := Consume_token t1 k c h1 hc
  refine ⟨t2, ?_⟩
  rw [h3] at h2
  exact h2

/-! ### Tokens up to `End` -/

/-- A tokenizer whose token is `End` with `eofbit` set stays so under `Consume`. -/
theorem Consume_at_end (t : Tokenizer) (he : t.in_.eofbit = true) :
    ∃ t1, t.Consume = .ret t1 ∧ t1.type_ = .kEnd ∧ t1.in_.eofbit = true := by
  obtain ⟨⟨rest, e, f⟩, ty, num, sym⟩ := t
  simp only at he
  subst he
  refine ⟨⟨⟨rest, true, true⟩, .kEnd, num, sym⟩, ?_, rfl, rfl⟩
  simp [Tokenizer.Consume, IStream.get, IStream.good,
    skipSpaces_nonspace _ _ (Char.ofNat 0) _ (by decide), IStream.eof]

/-- `Consume` sets `End` only with `eofbit` set. -/
theorem Consume_end_eofbit (t t1 : Tokenizer) (h : t.Consume = .ret t1)
    (he : t1.type_ = .kEnd) : t1.in_.eofbit = true := by
  simp only [Tokenizer.Consume] at h
  split at h
  · cases h
  · rename_i val s hs
    split at h
    · rename_i heof
      cases h
      exact heof
    · split at h <;> cases h <;> cases he

theorem consumeTimes_at_end (n : Nat) (t : Tokenizer) (hty : t.type_ = .kEnd)
    (he : t.in_.eofbit = true) :
    ∃ t1, consumeTimes n t = .ret t1 ∧ t1.type_ = .kEnd := by
  induction n generalizing t with
  | zero => exact ⟨t, rfl, hty⟩
  | succ n ih =>
    obtain ⟨t1, h1, h2, h3⟩ := Consume_at_end t he
    obtain ⟨t2, h4, h5⟩ := ih t1 h2 h3
    exact ⟨t2, by simp only [consumeTimes, h1, Outcome.bind_ret, h4], h5⟩

/-- `Consume` on a stream with no character left, and not failed short of its end,
sets `End`. -/
theorem Consume_exhausted (t : Tokenizer) (hr : t.in_.rest = [])
    (hf : t.in_.failbit = true → t.in_.eofbit = true) :
    ∃ t1, t.Consume = .ret t1 ∧ t1.type_ = .kEnd := by
  obtain ⟨⟨rest, e, f⟩, ty, num, sym⟩ := t
  simp only at hr hf
  subst hr
  cases e
  · cases f
    · exact ⟨_, by
        simp [Tokenizer.Consume, IStream.get, IStream.good, skipSpaces, isspace, IStream.eof]
        rfl, rfl⟩
    · simp at hf
  · obtain ⟨t1, h1, h2, -⟩ := Consume_at_end ⟨⟨[], true, f⟩, ty, num, sym⟩ rfl
    exact ⟨t1, h1, h2⟩


theorem Consume_sound (t t1 : Tokenizer) (h : t.Consume = .ret t1) (hs : t.in_.sound) :
    t1.in_.sound := by
  obtain ⟨⟨rest, e, f⟩, ty, num, sym⟩ := t
  simp only [IStream.sound] at hs
  simp only [Tokenizer.Consume] at h
  split at h
  · cases h
  · rename_i val s hsk
    by_cases hg : (e = false ∧ f = false) ∧ rest ≠ []
    · obtain ⟨⟨rfl, rfl⟩, hne⟩ := hg
      obtain ⟨c, r, rfl⟩ : ∃ c r, rest = c :: r := by
        cases rest with
        | nil => exact absurd rfl hne
        | cons c r => exact ⟨c, r, rfl⟩
      obtain ⟨h1, h2, -, -⟩ := skipSpaces_some _ _ _ _ _ _ hsk
      simp only [IStream.get, IStream.good, Bool.not_false, Bool.and_self, if_true] at h1 h2
      obtain ⟨srest, se, sf⟩ := s
      simp only at h1 h2
      subst h1 h2
      simp only [IStream.eof, Bool.false_eq_true, if_false] at h
      split at h
      · cases h
        simp only [IStream.sound, IStream.putback, IStream.extractInt64, IStream.good,
          Bool.not_false, Bool.and_self, if_true]
        split
        · intro hr _; simpa using hr
        · split
          · intro hr _; simpa using hr
          · intro hr _; simpa using hr
      · cases h
        intro _ hf
        cases hf
    · have hfail : IStream.get ⟨rest, e, f⟩ (Char.ofNat 0)
          = (Char.ofNat 0, ⟨rest, e || (!f && rest.isEmpty), true⟩) := by
        cases rest <;> cases e <;> cases f <;> simp_all [IStream.get, IStream.good]
      rw [hfail] at hsk
      simp only at hsk
      rw [skipSpaces_nonspace _ _ _ _ (by decide)] at hsk
      cases hsk
      simp only [IStream.eof] at h
      split at h
      · rename_i heof
        cases h
        intro _ _
        exact heof
      · rename_i hne
        simp only [show isdigit (Char.ofNat 0) = false by decide, Bool.false_eq_true,
          if_false] at h
        cases h
        intro hr _
        simp only at hr
        subst hr
        cases e <;> cases f <;> simp_all

theorem digitsValue_ofDigits (acc : Nat) (ds : List Char) :
    digitsValue acc ds
      = Nat.ofDigits 10 ((ds.map fun c => c.toNat - 48).reverse ++ [acc]) := by
  induction ds generalizing acc with
  | nil =>
    show acc = Nat.ofDigits 10 [acc]
    rw [Nat.ofDigits_singleton]
  | cons c cs ih =>
    show digitsValue (acc * 10 + (c.toNat - 48)) cs = _
    rw [ih, List.map_cons, List.reverse_cons, List.append_assoc, Nat.ofDigits_append,
      Nat.ofDigits_append, Nat.ofDigits_singleton]
    generalize (c.toNat - 48) = d
    show _ = _ + _ * Nat.ofDigits 10 [d, acc]
    rw [Nat.ofDigits_cons, Nat.ofDigits_singleton]
    ring

/-! ### Printing and parsing back -/

theorem digitChar_spec : ∀ m, m < 10 →
    isdigit (Nat.digitChar m) = true ∧ (Nat.digitChar m).toNat - 48 = m := by
  intro m hm
  interval_cases m <;> exact ⟨by decide, by decide⟩

theorem digitsValue_append (a : Nat) (xs ys : List Char) :
    digitsValue a (xs ++ ys) = digitsValue (digitsValue a xs) ys := by
  induction xs generalizing a with
  | nil => rfl
  | cons x xs ih =>
    show digitsValue (a * 10 + (x.toNat - 48)) (xs ++ ys)
      = digitsValue (digitsValue (a * 10 + (x.toNat - 48)) xs) ys
    exact ih _

/-- The digits `Nat.toDigitsCore` puts in front of `acc`: a nonempty run of decimal
digits with value `n`. -/
theorem toDigitsCore_spec (fuel n : Nat) (acc : List Char) (h : n < fuel) :
    ∃ ds, Nat.toDigitsCore 10 fuel n acc = ds ++ acc ∧ ds ≠ [] ∧ ds.all isdigit = true ∧
      ∀ a, digitsValue a ds = a * 10 ^ ds.length + n := by
  induction fuel generalizing n acc with
  | zero => omega
  | succ fuel ih =>
    have hd := digitChar_spec (n % 10) (Nat.mod_lt _ (by decide))
    simp only [Nat.toDigitsCore]
    split
    · rename_i h0
      refine ⟨[Nat.digitChar (n % 10)], rfl, by simp, by simp [hd.1], ?_⟩
      intro a
      show a * 10 + ((Nat.digitChar (n % 10)).toNat - 48) = a * 10 ^ 1 + n
      rw [hd.2, pow_one]
      omega
    · rename_i h0
      obtain ⟨ds, h1, h2, h3, h4⟩ := ih (n / 10) (Nat.digitChar (n % 10) :: acc) (by omega)
      refine ⟨ds ++ [Nat.digitChar (n % 10)], by simp [h1], by simp, by simp [h3, hd.1], ?_⟩
      intro a
      rw [digitsValue_append, h4]
      show (a * 10 ^ ds.length + n / 10) * 10 + ((Nat.digitChar (n % 10)).toNat - 48) = _
      rw [hd.2, List.length_append, List.length_singleton, pow_succ]
      have := Nat.div_add_mod n 10
      generalize 10 ^ ds.length = p
      nlinarith [Nat.div_add_mod n 10]

theorem toDigits_spec (n : Nat) :
    Nat.toDigits 10 n ≠ [] ∧ (Nat.toDigits 10 n).all isdigit = true ∧
      digitsValue 0 (Nat.toDigits 10 n) = n := by
  obtain ⟨ds, h1, h2, h3, h4⟩ := toDigitsCore_spec (n + 1) n [] (by omega)
  simp only [Nat.toDigits, h1, List.append_nil]
  exact ⟨h2, h3, by rw [h4]; simp⟩


theorem renderSyn_level (t : Expression) : (renderSyn t).level = 0 := by
  cases t <;> rfl

theorem renderSyn_print (t : Expression) : (renderSyn t).print = render t := by
  induction t with
  | null => rfl
  | Constant v => rfl
  | BinOperation l r op ihl ihr =>
    simp only [renderSyn, Syn.print, render, ihl, ihr, List.nil_append, List.append_assoc,
      List.cons_append]
  | UnaryOperation r ih =>
    simp only [renderSyn, Syn.print, render, ih, List.nil_append, List.append_assoc,
      List.cons_append]

theorem renderSyn_tree (t : Expression) (h : renderable t = true) :
    (renderSyn t).tree = t := by
  induction t with
  | null => simp [renderable] at h
  | Constant v =>
    simp only [renderable, Bool.and_eq_true, decide_eq_true_eq] at h
    simp only [renderSyn, Syn.tree, (toDigits_spec v.toNat).2.2]
    congr 1
    omega
  | BinOperation l r op ihl ihr =>
    simp only [renderable, Bool.and_eq_true] at h
    simp only [renderSyn, Syn.tree, ihl h.1.2, ihr h.2]
  | UnaryOperation r ih =>
    simp only [renderable] at h
    simp only [renderSyn, Syn.tree, ih h]

theorem renderSyn_valid (t : Expression) (h : renderable t = true) :
    (renderSyn t).valid = true := by
  induction t with
  | null => simp [renderable] at h
  | Constant v =>
    simp only [renderable, Bool.and_eq_true, decide_eq_true_eq] at h
    obtain ⟨h1, h2, h3⟩ := toDigits_spec v.toNat
    have h4 : ((digitsValue 0 (Nat.toDigits 10 v.toNat) : Nat) : Int) ≤ INT64_MAX := by
      rw [h3]; omega
    have h5 : (Nat.toDigits 10 v.toNat).isEmpty = false := by
      cases hd : Nat.toDigits 10 v.toNat with
      | nil => exact absurd hd h1
      | cons _ _ => rfl
    simp only [renderSyn, Syn.valid, List.all_nil, Bool.true_and, isLiteral, h5, Bool.not_false,
      h2, Bool.and_eq_true, decide_eq_true_eq, true_and]
    exact h4
  | BinOperation l r op ihl ihr =>
    simp only [renderable, Bool.and_eq_true, Bool.or_eq_true] at h
    simp only [renderSyn, Syn.valid, List.all_nil, Bool.true_and, ihl h.1.2, ihr h.2,
      renderSyn_level, Bool.and_true, Bool.or_eq_true, Bool.and_eq_true, decide_eq_true_eq,
      beq_self_eq_true]
    rcases h.1.1 with ha | hm
    · exact .inr ⟨ha, by omega⟩
    · exact .inl ⟨hm, by omega⟩
  | UnaryOperation r ih =>
    simp only [renderable] at h
    simp only [renderSyn, Syn.valid, List.all_nil, Bool.true_and, ih h, Syn.level,
      beq_self_eq_true, Bool.and_true]

/-! ### Operators of parsed trees -/

theorem Outcome.bind_eq_ret {α β : Type} (x : Outcome α) (f : α → Outcome β) (b : β)
    (h : x.bind f = .ret b) : ∃ a, x = .ret a ∧ f a = .ret b := by
  cases x with
  | ret a => exact ⟨a, rfl, h⟩
  | raised e => cases h
  | undefined u => cases h
  | spins => cases h
  | fuelOut => cases h

theorem stackedOn_refl (p : Char → Bool) (e : Expression) : stackedOn p e e = true := by
  cases e <;> simp [stackedOn]

theorem stackedOn_step (p : Char → Bool) (base x e : Expression) (op : Char)
    (hp : p op = true) (hx : x.opsKnown = true)
    (h : stackedOn p (.BinOperation base x op) e = true) : stackedOn p base e = true := by
  induction e with
  | null => simp [stackedOn] at h
  | Constant v => simp [stackedOn] at h
  | UnaryOperation r _ => simp [stackedOn] at h
  | BinOperation l r o ihl _ =>
    simp only [stackedOn, Bool.or_eq_true, beq_iff_eq, Bool.and_eq_true] at h ⊢
    rcases h with h | h
    · cases h
      exact .inr ⟨⟨hp, hx⟩, stackedOn_refl p base⟩
    · exact .inr ⟨h.1, ihl h.2⟩

theorem opsKnown_of_stackedOn (p : Char → Bool) (base e : Expression)
    (hp : ∀ c, p c = true → (isAddOp c || isMulOp c) = true) (hb : base.opsKnown = true)
    (h : stackedOn p base e = true) : e.opsKnown = true := by
  induction e with
  | null => simp [Expression.opsKnown]
  | Constant v => simp [Expression.opsKnown]
  | UnaryOperation r _ =>
    simp only [stackedOn, beq_iff_eq] at h
    rw [h]; exact hb
  | BinOperation l r o ihl _ =>
    simp only [stackedOn, Bool.or_eq_true, beq_iff_eq, Bool.and_eq_true] at h
    rcases h with h | h
    · rw [h]; exact hb
    · simp only [Expression.opsKnown, Bool.and_eq_true]
      exact ⟨⟨hp o h.1.1, ihl h.2⟩, h.1.2⟩

/-- The trees the parser functions return: `Multiplicate`, `Item` and
`ParseExpression` return trees whose operators are all among `+ - * /`; the loop of
`Item` stacks `*` and `/` nodes on its running result, the loop of `ParseExpression`
stacks `+` and `-` nodes. -/
theorem parser_operators (n : Nat) :
    (∀ t r, Multiplicate n t = .ret r → r.1.opsKnown = true) ∧
    (∀ e t r, ItemLoop n e t = .ret r → stackedOn isMulOp e r.1 = true) ∧
    (∀ t r, Item n t = .ret r → r.1.opsKnown = true) ∧
    (∀ e t r, ParseLoop n e t = .ret r → stackedOn isAddOp e r.1 = true) ∧
    (∀ t r, ParseExpression n t = .ret r → r.1.opsKnown = true) := by
  induction n with
  | zero =>
    refine ⟨?_, ?_, ?_, ?_, ?_⟩ <;> intros <;>
      simp_all [Multiplicate, ItemLoop, Item, ParseLoop, ParseExpression]
  | succ n ih =>
    obtain ⟨hM, hIL, hI, hPL, hPE⟩ := ih
    have hmul : ∀ c, isMulOp c = true → (isAddOp c || isMulOp c) = true := by
      intro c h; simp [h]
    have hadd : ∀ c, isAddOp c = true → (isAddOp c || isMulOp c) = true := by
      intro c h; simp [h]
    refine ⟨?_, ?_, ?_, ?_, ?_⟩
    · intro t r h
      rw [Multiplicate] at h
      split at h
      · obtain ⟨t1, -, h2⟩ := Outcome.bind_eq_ret _ _ _ h
        cases h2; rfl
      · split at h
        · obtain ⟨t1, -, h2⟩ := Outcome.bind_eq_ret _ _ _ h
          obtain ⟨r1, h3, h4⟩ := Outcome.bind_eq_ret _ _ _ h2
          obtain ⟨t3, -, h6⟩ := Outcome.bind_eq_ret _ _ _ h4
          cases h6
          exact hPE t1 r1 h3
        · split at h
          · obtain ⟨t1, -, h2⟩ := Outcome.bind_eq_ret _ _ _ h
            obtain ⟨r1, h3, h4⟩ := Outcome.bind_eq_ret _ _ _ h2
            cases h4
            exact hM t1 r1 h3
          · cases h; rfl
    · intro e t r h
      rw [ItemLoop] at h
      split at h
      · rename_i hc
        obtain ⟨t1, -, h2⟩ := Outcome.bind_eq_ret _ _ _ h
        obtain ⟨r1, h3, h4⟩ := Outcome.bind_eq_ret _ _ _ h2
        refine stackedOn_step isMulOp e r1.1 r.1 t.symbol_ ?_ (hM t1 r1 h3) (hIL _ _ _ h4)
        rcases hc.2 with h5 | h5 <;> rw [h5] <;> decide
      · cases h
        exact stackedOn_refl _ _
    · intro t r h
      rw [Item] at h
      obtain ⟨r1, h3, h4⟩ := Outcome.bind_eq_ret _ _ _ h
      exact opsKnown_of_stackedOn isMulOp r1.1 r.1 hmul (hM t r1 h3) (hIL _ _ _ h4)
    · intro e t r h
      rw [ParseLoop] at h
      split at h
      · rename_i hc
        obtain ⟨t1, -, h2⟩ := Outcome.bind_eq_ret _ _ _ h
        obtain ⟨r1, h3, h4⟩ := Outcome.bind_eq_ret _ _ _ h2
        refine stackedOn_step isAddOp e r1.1 r.1 t.symbol_ ?_ (hI t1 r1 h3) (hPL _ _ _ h4)
        rcases hc.2 with h5 | h5 <;> rw [h5] <;> decide
      · cases h
        exact stackedOn_refl _ _
    · intro t r h
      rw [ParseExpression] at h
      obtain ⟨r1, h3, h4⟩ := Outcome.bind_eq_ret _ _ _ h
      exact opsKnown_of_stackedOn isAddOp r1.1 r.1 hadd (hI t r1 h3) (hPL _ _ _ h4)

theorem defaultTaken_of_opsKnown (t : Expression) (h : t.opsKnown = true) :
    defaultTaken t = false := by
  induction t with
  | null => rfl
  | Constant v => rfl
  | UnaryOperation r ih => exact ih h
  | BinOperation l r op ihl ihr =>
    simp only [Expression.opsKnown, Bool.and_eq_true] at h
    simp only [defaultTaken, h.1.1, if_true, ihl h.1.2, ihr h.2, Bool.and_false, Bool.or_self]

/-! ### Termination of the parser, counted in tokens -/

theorem endsInSpace_tail (x : Char) (l : List Char) (h : endsInSpace (x :: l) = false) :
    endsInSpace l = false := by
  cases l with
  | nil => rfl
  | cons c r => simpa [endsInSpace] using h

theorem endsInSpace_dropWhile (p : Char → Bool) (l : List Char)
    (h : endsInSpace l = false) : endsInSpace (l.dropWhile p) = false := by
  induction l with
  | nil => rfl
  | cons c r ih =>
    simp only [List.dropWhile]
    split
    · exact ih (endsInSpace_tail c r h)
    · exact h

theorem countTokens_dropWhile (r : List Char) :
    countTokens false (r.dropWhile isdigit) = countTokens true r := by
  induction r with
  | nil => rfl
  | cons c cs ih =>
    cases hd : isdigit c
    · simp only [List.dropWhile, hd, countTokens]
      split <;> simp
    · have hs := isspace_of_isdigit c hd
      simp only [List.dropWhile, hd, countTokens, hs, ih]
      simp

/-- The whitespace loop keeps the tokens of the text and its end. -/
theorem skipSpaces_tokens (v : Char) (l : List Char) (val : Char) (s : IStream)
    (h : skipSpaces false false v l = some (val, s)) :
    countTokens false (v :: l) = countTokens false (val :: s.rest) ∧
      endsInSpace (v :: l) = endsInSpace (val :: s.rest) := by
  induction l generalizing v with
  | nil =>
    simp only [skipSpaces] at h
    split at h
    · cases h
    · cases h; exact ⟨rfl, rfl⟩
  | cons c r ih =>
    simp only [skipSpaces] at h
    split at h
    · rename_i hv
      simp only [Bool.not_false, Bool.and_self, if_true] at h
      obtain ⟨h1, h2⟩ := ih c h
      exact ⟨by rw [← h1]; simp [countTokens, hv], by rw [← h2]; simp [endsInSpace]⟩
    · cases h; exact ⟨rfl, rfl⟩

/-- The whitespace loop runs forever only on a text that ends in whitespace. -/
theorem skipSpaces_none (v : Char) (l : List Char)
    (h : skipSpaces false false v l = none) : endsInSpace (v :: l) = true := by
  induction l generalizing v with
  | nil =>
    simp only [skipSpaces] at h
    split at h
    · rename_i hv; simpa [endsInSpace] using hv
    · cases h
  | cons c r ih =>
    simp only [skipSpaces] at h
    split at h
    · simp only [Bool.not_false, Bool.and_self, if_true] at h
      simpa [endsInSpace] using ih c h
    · cases h

/-- On a text that does not end in whitespace `Consume` returns, and the tokens left
afterwards, the new current token counted when live, are at most those the stream
held. -/
theorem Consume_tokens (t : Tokenizer) (hs : endsInSpace t.in_.rest = false) :
    ∃ t1, t.Consume = .ret t1 ∧ endsInSpace t1.in_.rest = false ∧
      t1.tokenMeasure ≤ t.in_.tokensLeft := by
  obtain ⟨⟨rest, e, f⟩, ty, num, sym⟩ := t
  simp only at hs
  by_cases hg : (e = false ∧ f = false) ∧ rest ≠ []
  · obtain ⟨⟨rfl, rfl⟩, hne⟩ := hg
    obtain ⟨c, r, rfl⟩ : ∃ c r, rest = c :: r := by
      cases rest with
      | nil => exact absurd rfl hne
      | cons c r => exact ⟨c, r, rfl⟩
    cases hsk : skipSpaces false false c r with
    | none =>
      rw [skipSpaces_none c r hsk] at hs
      cases hs
    | some p =>
      obtain ⟨val, s⟩ := p
      obtain ⟨h1, h2, -, h4⟩ := skipSpaces_some _ _ _ _ _ _ hsk
      obtain ⟨h5, h6⟩ := skipSpaces_tokens c r val s hsk
      obtain ⟨srest, se, sf⟩ := s
      simp only at h1 h2 h5 h6
      subst h1 h2
      rw [h6] at hs
      have hs' := endsInSpace_tail val srest hs
      have hget : IStream.get ⟨c :: r, false, false⟩ (Char.ofNat 0)
          = (c, ⟨r, false, false⟩) := rfl
      simp only [Tokenizer.Consume, hget, hsk, IStream.eof, Bool.false_eq_true, if_false,
        IStream.tokensLeft, IStream.good, Bool.not_false, Bool.and_self, if_true, h5]
      cases hd : isdigit val
      · refine ⟨_, rfl, hs', ?_⟩
        simp only [Tokenizer.measure, Tokenizer.tokenMeasure, IStream.tokensLeft, IStream.good,
          Bool.not_false, Bool.and_self, if_true, countTokens, h4, hd, Bool.false_eq_true,
          if_false]
        split <;> omega
      · refine ⟨_, rfl, ?_, ?_⟩
        · simp only [IStream.putback, IStream.extractInt64, IStream.good, Bool.not_false,
            Bool.and_self, if_true, List.takeWhile, List.dropWhile, hd, List.isEmpty_cons,
            Bool.false_eq_true, if_false]
          split <;> exact endsInSpace_dropWhile _ _ hs'
        · have hk : (TokenType.kNumber == TokenType.kSymbol) = false := by decide
          have hc := countTokens_dropWhile srest
          simp only [Tokenizer.tokenMeasure, Tokenizer.live, hk, Bool.false_and,
            Bool.false_eq_true, if_false, Nat.add_zero, IStream.tokensLeft, IStream.putback,
            IStream.extractInt64, IStream.good, Bool.not_false, Bool.and_self, if_true,
            List.takeWhile, List.dropWhile, hd, List.isEmpty_cons, countTokens, h4]
          by_cases hv : ((digitsValue 0 (val :: List.takeWhile isdigit srest) : Nat) : Int)
              ≤ INT64_MAX
          · simp only [hv, if_true]
            split <;> omega
          · simp only [hv, if_false]
            split <;> omega
  · have hfail : IStream.get ⟨rest, e, f⟩ (Char.ofNat 0)
        = (Char.ofNat 0, ⟨rest, e || (!f && rest.isEmpty), true⟩) := by
      cases rest <;> cases e <;> cases f <;> simp_all [IStream.get, IStream.good]
    simp only [Tokenizer.Consume, hfail, skipSpaces_nonspace _ _ (Char.ofNat 0) _ (by decide),
      IStream.eof, show isdigit (Char.ofNat 0) = false by decide, Bool.false_eq_true, if_false]
    split
    · exact ⟨_, rfl, hs, by
        simp [Tokenizer.tokenMeasure, Tokenizer.live, IStream.tokensLeft, IStream.good]⟩
    · exact ⟨_, rfl, hs, by
        simp [Tokenizer.tokenMeasure, Tokenizer.live, IStream.tokensLeft, IStream.good]⟩


theorem Returns_bind {α : Type} (x : Outcome α) (f : α → Outcome Parsed) (b : Nat) (a : α)
    (hx : x = .ret a) (hf : Returns (f a) b) : Returns (x.bind f) b := by
  rw [hx]; exact hf

theorem Returns_mono {o : Outcome Parsed} {b c : Nat} (h : Returns o b) (hbc : b ≤ c) :
    Returns o c := by
  obtain ⟨r, h1, h2, h3⟩ := h
  exact ⟨r, h1, h2, Nat.le_trans h3 hbc⟩

theorem tokensLeft_le_tokenMeasure (t : Tokenizer) : t.in_.tokensLeft ≤ t.tokenMeasure := by
  simp only [Tokenizer.tokenMeasure]; omega

theorem tokenMeasure_of_live (t : Tokenizer) (h : t.live = true) :
    t.tokenMeasure = t.in_.tokensLeft + 1 := by
  simp [Tokenizer.tokenMeasure, h]

/-- On a text that does not end in whitespace, with a budget of three units per token
left, every parser function returns, and hands back a tokenizer with no more tokens
left than before. -/
theorem parser_returns (n : Nat) :
    (∀ t, endsInSpace t.in_.rest = false → 3 * t.tokenMeasure + 1 ≤ n →
      Returns (Multiplicate n t) t.tokenMeasure) ∧
    (∀ e t, endsInSpace t.in_.rest = false → 3 * t.tokenMeasure + 1 ≤ n →
      Returns (ItemLoop n e t) t.tokenMeasure) ∧
    (∀ t, endsInSpace t.in_.rest = false → 3 * t.tokenMeasure + 2 ≤ n →
      Returns (Item n t) t.tokenMeasure) ∧
    (∀ e t, endsInSpace t.in_.rest = false → 3 * t.tokenMeasure + 2 ≤ n →
      Returns (ParseLoop n e t) t.tokenMeasure) ∧
    (∀ t, endsInSpace t.in_.rest = false → 3 * t.tokenMeasure + 3 ≤ n →
      Returns (ParseExpression n t) t.tokenMeasure) := by
  induction n with
  | zero =>
    refine ⟨?_, ?_, ?_, ?_, ?_⟩ <;> intros <;> omega
  | succ n ih =>
    obtain ⟨hM, hIL, hI, hPL, hPE⟩ := ih
    refine ⟨?_, ?_, ?_, ?_, ?_⟩
    · intro t hs hn
      obtain ⟨t1, h1, h2, h3⟩ := Consume_tokens t hs
      have hle := tokensLeft_le_tokenMeasure t
      rw [Multiplicate]
      split
      · exact Returns_bind _ _ _ t1 h1 ⟨_, rfl, h2, by simp only; omega⟩
      · split
        · rename_i hc
          have hm := tokenMeasure_of_live t (live_of_symbol t hc.1 (.inl hc.2))
          obtain ⟨r, h4, h5, h6⟩ := hPE t1 h2 (by omega)
          obtain ⟨t3, h7, h8, h9⟩ := Consume_tokens r.2 h5
          have := tokensLeft_le_tokenMeasure r.2
          exact Returns_bind _ _ _ t1 h1 (Returns_bind _ _ _ r h4
            (Returns_bind _ _ _ t3 h7 ⟨_, rfl, h8, by simp only; omega⟩))
        · split
          · rename_i hc
            have hm := tokenMeasure_of_live t (live_of_symbol t hc.1 (.inr (.inl hc.2)))
            obtain ⟨r, h4, h5, h6⟩ := hM t1 h2 (by omega)
            exact Returns_bind _ _ _ t1 h1 (Returns_bind _ _ _ r h4
              ⟨_, rfl, h5, by simp only; omega⟩)
          · exact ⟨_, rfl, hs, Nat.le_refl _⟩
    · intro e t hs hn
      rw [ItemLoop]
      split
      · rename_i hc
        have hm := tokenMeasure_of_live t (live_of_symbol t hc.1 (by tauto))
        obtain ⟨t1, h1, h2, h3⟩ := Consume_tokens t hs
        obtain ⟨r, h4, h5, h6⟩ := hM t1 h2 (by omega)
        exact Returns_bind _ _ _ t1 h1 (Returns_bind _ _ _ r h4
          (Returns_mono (hIL _ r.2 h5 (by omega)) (by omega)))
      · exact ⟨_, rfl, hs, Nat.le_refl _⟩
    · intro t hs hn
      rw [Item]
      obtain ⟨r, h4, h5, h6⟩ := hM t hs (by omega)
      exact Returns_bind _ _ _ r h4 (Returns_mono (hIL _ r.2 h5 (by omega)) h6)
    · intro e t hs hn
      rw [ParseLoop]
      split
      · rename_i hc
        have hm := tokenMeasure_of_live t (live_of_symbol t hc.1 (by tauto))
        obtain ⟨t1, h1, h2, h3⟩ := Consume_tokens t hs
        obtain ⟨r, h4, h5, h6⟩ := hI t1 h2 (by omega)
        exact Returns_bind _ _ _ t1 h1 (Returns_bind _ _ _ r h4
          (Returns_mono (hPL _ r.2 h5 (by omega)) (by omega)))
      · exact ⟨_, rfl, hs, Nat.le_refl _⟩
    · intro t hs hn
      rw [ParseExpression]
      obtain ⟨r, h4, h5, h6⟩ := hI t hs (by omega)
      exact Returns_bind _ _ _ r h4 (Returns_mono (hPL _ r.2 h5 (by omega)) h6)

theorem countTokens_le_length (b : Bool) (l : List Char) : countTokens b l ≤ l.length := by
  induction l generalizing b with
  | nil => exact Nat.le_refl _
  | cons c cs ih =>
    have h1 := ih false
    have h2 := ih true
    simp only [countTokens, List.length_cons]
    split
    · omega
    · split
      · split <;> omega
      · omega

/-- An input that does not end in whitespace is parsed to the end: `parseInput`
returns. -/
theorem parseInput_returns (input : String) (hs : endsInSpace input.toList = false) :
    ∃ r, parseInput input = .ret r := by
  obtain ⟨t1, h1, h2, h3⟩ :=
    Consume_tokens ⟨IStream.ofString input, .kEnd, 0, Char.ofNat 0⟩ hs
  have h4 : (IStream.ofString input).tokensLeft ≤ input.length := by
    simp only [IStream.tokensLeft, IStream.ofString, IStream.good, Bool.not_false,
      Bool.and_self, if_true]
    exact countTokens_le_length false input.toList
  obtain ⟨r, h5, -, -⟩ := (parser_returns (parseFuel input.length)).2.2.2.2 t1 h2
    (by simp only [parseFuel]; simp only at h3; omega)
  refine ⟨r, ?_⟩
  simp only [parseInput, Tokenizer.new, h1, Outcome.bind_ret, h5]

/-! ### Reaching `End` -/

/-- On a stream that has failed short of its end, `Consume` reads nothing and sets
the token `Symbol` with the character 0. -/
theorem Consume_failed (t : Tokenizer) (he : t.in_.eofbit = false)
    (hf : t.in_.failbit = true) :
    t.Consume = .ret ⟨t.in_, .kSymbol, t.number_, Char.ofNat 0⟩ := by
  obtain ⟨⟨rest, e, f⟩, ty, num, sym⟩ := t
  simp only at he hf
  subst he hf
  simp [Tokenizer.Consume, IStream.get, IStream.good,
    skipSpaces_nonspace _ _ (Char.ofNat 0) _ (by decide), IStream.eof,
    show isdigit (Char.ofNat 0) = false by decide]

theorem consumeTimes_failed (n : Nat) (t : Tokenizer) (he : t.in_.eofbit = false)
    (hf : t.in_.failbit = true) (hty : t.type_ ≠ .kEnd) :
    ∃ t1, consumeTimes n t = .ret t1 ∧ t1.type_ ≠ .kEnd := by
  induction n generalizing t with
  | zero => exact ⟨t, rfl, hty⟩
  | succ n ih =>
    obtain ⟨t1, h1, h2⟩ := ih ⟨t.in_, .kSymbol, t.number_, Char.ofNat 0⟩ he hf
      (fun h => by cases h)
    exact ⟨t1, by simp only [consumeTimes, Consume_failed t he hf, Outcome.bind_ret, h1], h2⟩

theorem literalsFit_head (a : Nat) (k : List Char) (hk : NoDigitHead k) :
    literalsFit a k = literalsFit 0 k := by
  cases k with
  | nil => rfl
  | cons c r => simp only [literalsFit, hk c r rfl, Bool.false_eq_true, if_false]

theorem literalsFit_digits (ds k : List Char) (a : Nat) (hd : ds.all isdigit = true)
    (h : literalsFit a (ds ++ k) = true) :
    (ds ≠ [] → ((digitsValue a ds : Nat) : Int) ≤ INT64_MAX) ∧
      literalsFit (digitsValue a ds) k = true := by
  induction ds generalizing a with
  | nil => exact ⟨fun h0 => absurd rfl h0, h⟩
  | cons d ds ih =>
    simp only [List.all_cons, Bool.and_eq_true] at hd
    simp only [List.cons_append, literalsFit, hd.1, if_true, Bool.and_eq_true,
      decide_eq_true_eq] at h
    obtain ⟨h1, h2⟩ := ih (a * 10 + (d.toNat - 48)) hd.2 h.2
    refine ⟨fun _ => ?_, h2⟩
    show ((digitsValue (a * 10 + (d.toNat - 48)) ds : Nat) : Int) ≤ INT64_MAX
    cases ds with
    | nil => exact h.1
    | cons x xs => exact h1 (by simp)

theorem literalsFit_spaces (ws k : List Char) (hw : ws.all isspace = true)
    (h : literalsFit 0 (ws ++ k) = true) : literalsFit 0 k = true := by
  induction ws with
  | nil => exact h
  | cons w ws ih =>
    simp only [List.all_cons, Bool.and_eq_true] at hw
    have hd : isdigit w = false := by
      cases hdw : isdigit w
      · rfl
      · have := isspace_of_isdigit w hdw
        rw [hw.1] at this
        cases this
    simp only [List.cons_append, literalsFit, hd, Bool.false_eq_true, if_false] at h
    exact ih hw.2 h

theorem countTokens_spaces (ws k : List Char) (hw : ws.all isspace = true) :
    countTokens false (ws ++ k) = countTokens false k := by
  induction ws with
  | nil => rfl
  | cons w ws ih =>
    simp only [List.all_cons, Bool.and_eq_true] at hw
    show countTokens false (w :: (ws ++ k)) = countTokens false k
    simp only [countTokens, hw.1, if_true, ih hw.2]

theorem endsInSpace_append_right (a b : List Char) (h : endsInSpace (a ++ b) = false) :
    endsInSpace b = false := by
  induction a with
  | nil => exact h
  | cons x a ih => exact ih (endsInSpace_tail x (a ++ b) h)

theorem endsInSpace_all_space (w : Char) (ws : List Char) (hw : isspace w = true)
    (hws : ws.all isspace = true) : endsInSpace (w :: ws) = true := by
  induction ws generalizing w with
  | nil => simpa [endsInSpace] using hw
  | cons x xs ih =>
    simp only [List.all_cons, Bool.and_eq_true] at hws
    simpa [endsInSpace] using ih x hws.1 hws.2

/-- The lexer where it does what the specification says: on a text that does not end
in whitespace and whose literals all fit `int64_t`, every `Consume` returns and
after at most one call per token, plus one, the token is `End`. -/
theorem tokens_reach_End (m : Nat) : ∀ (cs : List Char) (t : Tokenizer), cs.length ≤ m →
    Pending t cs → endsInSpace cs = false → literalsFit 0 cs = true →
    ∃ n t1, n ≤ countTokens false cs + 1 ∧ consumeTimes n t = .ret t1 ∧
      t1.type_ = .kEnd := by
  induction m with
  | zero =>
    intro cs t hlen hp _ _
    have : cs = [] := List.length_eq_zero.mp (by omega)
    subst this
    obtain ⟨t1, h1, h2⟩ := Consume_end t hp
    exact ⟨1, t1, by omega, by simp only [consumeTimes, h1, Outcome.bind_ret], h2⟩
  | succ m ih =>
    intro cs t hlen hp hs hfit
    obtain ⟨ws, hws, hk⟩ := span_spaces cs
    cases hd : cs.dropWhile isspace with
    | nil =>
      rw [hd, List.append_nil] at hk
      subst hk
      cases cs with
      | nil =>
        obtain ⟨t1, h1, h2⟩ := Consume_end t hp
        exact ⟨1, t1, by omega, by simp only [consumeTimes, h1, Outcome.bind_ret], h2⟩
      | cons w ws =>
        simp only [List.all_cons, Bool.and_eq_true] at hws
        rw [endsInSpace_all_space w ws hws.1 hws.2] at hs
        cases hs
    | cons c r =>
      have hcs : isspace c = false := by
        have := List.head_dropWhile_not isspace cs (by simp [hd])
        simpa [hd] using this
      rw [hd] at hk
      subst hk
      have hfit1 := literalsFit_spaces ws (c :: r) hws hfit
      have hs1 := endsInSpace_append_right ws (c :: r) hs
      have hlen1 : r.length ≤ m := by
        simp only [List.length_append, List.length_cons] at hlen; omega
      cases hdg : isdigit c
      · obtain ⟨t1, h1, -, -, h4⟩ := Consume_symbol t ws c r hp hws hcs hdg
        have hfit2 : literalsFit 0 r = true := by
          simpa only [literalsFit, hdg, Bool.false_eq_true, if_false] using hfit1
        obtain ⟨n, t2, h5, h6, h7⟩ := ih r t1 hlen1 h4 (endsInSpace_tail c r hs1) hfit2
        refine ⟨n + 1, t2, ?_, by simp only [consumeTimes, h1, Outcome.bind_ret, h6], h7⟩
        rw [countTokens_spaces ws _ hws]
        simp only [countTokens, hcs, hdg, Bool.false_eq_true, if_false]
        omega
      · have hsplit : r = r.takeWhile isdigit ++ r.dropWhile isdigit :=
          (List.takeWhile_append_dropWhile isdigit r).symm
        have hall : (c :: r.takeWhile isdigit).all isdigit = true := by
          simp only [List.all_cons, hdg, Bool.true_and, List.all_eq_true]
          intro x hx
          exact List.mem_takeWhile_imp hx
        have hkd : NoDigitHead (r.dropWhile isdigit) := by
          intro x y hxy
          have := List.head_dropWhile_not isdigit r (by simp [hxy])
          simpa [hxy] using this
        have hfit2 : literalsFit 0 ((c :: r.takeWhile isdigit) ++ r.dropWhile isdigit)
            = true := by
          rw [List.cons_append, ← hsplit]; exact hfit1
        obtain ⟨h8, h9⟩ := literalsFit_digits _ _ 0 hall hfit2
        have hlit : isLiteral (c :: r.takeWhile isdigit) = true := by
          simp only [isLiteral, List.isEmpty_cons, Bool.not_false, Bool.true_and,
            Bool.and_eq_true, decide_eq_true_eq]
          exact ⟨hall, h8 (by simp)⟩
        have hp' : Pending t (ws ++ ((c :: r.takeWhile isdigit) ++ r.dropWhile isdigit)) := by
          rw [List.cons_append, ← hsplit]; exact hp
        obtain ⟨t1, h1, -, -, h4⟩ := Consume_number t ws _ _ hp' hws hlit hkd
        have hlen2 : (r.dropWhile isdigit).length ≤ m :=
          Nat.le_trans (dropWhile_length_le isdigit r) hlen1
        obtain ⟨n, t2, h5, h6, h7⟩ := ih _ t1 hlen2 h4
          (endsInSpace_dropWhile _ _ (endsInSpace_tail c r hs1))
          (by rw [← literalsFit_head _ _ hkd]; exact h9)
        refine ⟨n + 1, t2, ?_, by simp only [consumeTimes, h1, Outcome.bind_ret, h6], h7⟩
        rw [countTokens_spaces ws _ hws]
        simp only [countTokens, hcs, hdg, Bool.false_eq_true, if_false, if_true,
          ← countTokens_dropWhile r]
        omega

/-! ### Claims -/

/-- C1: for every text `s.print` of the grammar (`s.valid`) with no division by zero
and every literal and intermediate value in the range of `int64_t` (`s.safe`),
`EvaluateExpression` returns the value of the text under ordinary arithmetic:
`*` and `/` bind tighter than `+` and `-`, equal precedence groups to the left,
division rounds toward zero. -/
theorem EvaluateExpression_standard_arithmetic (s : Syn) (hv : s.valid = true)
    (hs : s.safe = true) : EvaluateExpression (String.mk s.print) = .ret s.value := by
  obtain ⟨t, h, -⟩ := parseInput_print s hv
  rw [EvaluateExpression_eq, h, Outcome.bind_ret]
  exact Evaluate_tree s hv hs

/-- Witness of C1 at the text `2 + 3 * 4`, whose value is 14. -/
theorem EvaluateExpression_standard_arithmetic_witness :
    exPrecedence.valid = true ∧ exPrecedence.safe = true ∧
      String.mk exPrecedence.print = "2 + 3 * 4" ∧ exPrecedence.value = 14 ∧
      EvaluateExpression (String.mk exPrecedence.print) = .ret exPrecedence.value :=
  ⟨by decide, by decide, by decide, by decide,
    EvaluateExpression_standard_arithmetic exPrecedence (by decide) (by decide)⟩

/-- C2: `Evaluate` follows the reference definition. `Constant(v)` gives `v`;
`UnaryOperation(e)` gives the negation of the value of `e` reduced to 64 bits, which
for `INT64_MIN` is `INT64_MIN` again; `BinOperation(l, r, op)` gives the sum,
difference or product of the values of `l` and `r`, reduced to 64 bits, for `op` one
of `+`, `-`, `*`. -/
theorem Evaluate_reference (v : Int) (e l r : Expression) (x a b : Int)
    (he : Evaluate e = .ret x) (hl : Evaluate l = .ret a) (hr : Evaluate r = .ret b) :
    Evaluate (.Constant v) = .ret v ∧
    Evaluate (.UnaryOperation e) = .ret (wrap64 (-x)) ∧
    (x = INT64_MIN → Evaluate (.UnaryOperation e) = .ret INT64_MIN) ∧
    (inInt64 x = true → x ≠ INT64_MIN → Evaluate (.UnaryOperation e) = .ret (-x)) ∧
    Evaluate (.BinOperation l r '+') = .ret (wrap64 (a + b)) ∧
    Evaluate (.BinOperation l r '-') = .ret (wrap64 (a - b)) ∧
    Evaluate (.BinOperation l r '*') = .ret (wrap64 (a * b)) := by
  have hu : Evaluate (.UnaryOperation e) = .ret (wrap64 (-x)) := by
    simp only [Evaluate, he, Outcome.bind_ret]
    rw [show x * (-1) = -x by ring]
  refine ⟨rfl, hu, ?_, ?_, ?_, ?_, ?_⟩
  · intro hx
    rw [hu, hx]
    rfl
  · intro hx hne
    rw [hu]
    congr 1
    simp only [inInt64, INT64_MIN, INT64_MAX, Bool.and_eq_true, decide_eq_true_eq] at hx hne
    simp only [wrap64]
    omega
  · simp [Evaluate, hl, hr]
  · simp [Evaluate, hl, hr]
  · simp [Evaluate, hl, hr]

/-- Witness of C2 at the constants `INT64_MIN`, 5, 2 and 3. -/
theorem Evaluate_reference_witness :
    Evaluate (.UnaryOperation (.Constant INT64_MIN)) = .ret INT64_MIN ∧
    Evaluate (.UnaryOperation (.Constant 5)) = .ret (-5) ∧
    Evaluate (.BinOperation (.Constant 2) (.Constant 3) '*') = .ret (wrap64 (2 * 3)) :=
  have h := Evaluate_reference 7 (.Constant INT64_MIN) (.Constant 2) (.Constant 3)
    INT64_MIN 2 3 rfl rfl rfl
  have h5 := Evaluate_reference 7 (.Constant 5) (.Constant 2) (.Constant 3) 5 2 3 rfl rfl rfl
  ⟨h.2.2.1 rfl, h5.2.2.2.1 (by decide) (by decide), h.2.2.2.2.2.2⟩

/-- C3: for operands with values `a` and `b`, `b` not 0 and not the case
`INT64_MIN / -1`, the node `BinOperation(l, r, '/')` evaluates to the quotient
rounded toward zero; `7 / 2` gives 3 and `-7 / 2` gives -3 (rounding toward negative
infinity would give -4). -/
theorem Evaluate_division_truncates (l r : Expression) (a b : Int)
    (hl : Evaluate l = .ret a) (hr : Evaluate r = .ret b) (hb : b ≠ 0)
    (hm : ¬(a = INT64_MIN ∧ b = -1)) :
    Evaluate (.BinOperation l r '/') = .ret (truncQuot a b) ∧
    EvaluateExpression "7 / 2" = .ret 3 ∧
    EvaluateExpression "-7 / 2" = .ret (-3) ∧
    Int.fdiv (-7) 2 = -4 := by
  refine ⟨?_, by decide, by decide, by decide⟩
  simp only [Evaluate, hl, hr, Outcome.bind_ret, div64, if_neg hb, if_neg hm,
    tdiv_eq_truncQuot]
  simp

/-- Witness of C3 at `-7 / 2`. -/
theorem Evaluate_division_truncates_witness :
    Evaluate (.BinOperation (.Constant (-7)) (.Constant 2) '/') = .ret (truncQuot (-7) 2) ∧
    truncQuot (-7) 2 = -3 :=
  ⟨(Evaluate_division_truncates (.Constant (-7)) (.Constant 2) (-7) 2 rfl rfl
    (by decide) (by decide)).1, by decide⟩

/-- C4, counterexample: at `5 / 0` the code raises no `DivideByZero`; it performs the
division, which is undefined. And a tree with a zero division below a node whose
operator character is none of `+ - * /` evaluates to the integer 0. -/
theorem division_by_zero_not_raised :
    EvaluateExpression "5 / 0" ≠ .raised .DivideByZero ∧
    EvaluateExpression "5 / 0" = .undefined .divByZero ∧
    (Expression.BinOperation (.BinOperation (.Constant 5) (.Constant 0) '/')
      (.Constant 1) '%').hasZeroDivisor = true ∧
    Evaluate (.BinOperation (.BinOperation (.Constant 5) (.Constant 0) '/')
      (.Constant 1) '%') = .ret 0 := by
  decide

/-- C4, amended: for every tree whose operator characters are among `+ - * /` and
which contains a division node whose right operand evaluates to 0, `Evaluate`
returns no integer and raises nothing: the run ends in undefined behaviour. In
particular `EvaluateExpression("5 / 0")` ends in the division by zero. -/
theorem Evaluate_zero_divisor_undefined (t : Expression) (hops : t.opsKnown = true)
    (hz : t.hasZeroDivisor = true) :
    (∃ u, Evaluate t = .undefined u) ∧ (∀ v, Evaluate t ≠ .ret v) ∧
    (∀ e, Evaluate t ≠ .raised e) ∧
    EvaluateExpression "5 / 0" = .undefined .divByZero := by
  obtain ⟨u, hu⟩ := Evaluate_zero_divisor t hops hz
  refine ⟨⟨u, hu⟩, ?_, ?_, by decide⟩
  · intro v h; rw [hu] at h; cases h
  · intro e h; rw [hu] at h; cases h

/-- Witness of amended C4 at the tree of `1 + 5 / 0`. -/
theorem Evaluate_zero_divisor_undefined_witness :
    ∃ u, Evaluate (.BinOperation (.Constant 1)
      (.BinOperation (.Constant 5) (.Constant 0) '/') '+') = .undefined u :=
  (Evaluate_zero_divisor_undefined
    (.BinOperation (.Constant 1) (.BinOperation (.Constant 5) (.Constant 0) '/') '+')
    (by decide) (by decide)).1

/-- C5, counterexample: neither `+` nor the empty input makes `EvaluateExpression`
raise `UnexpectedToken`; in both runs the parser hands back a null pointer, which is
then dereferenced. -/
theorem unexpected_token_not_raised :
    EvaluateExpression "+" ≠ .raised .UnexpectedToken ∧
    EvaluateExpression "" ≠ .raised .UnexpectedToken ∧
    EvaluateExpression "+" = .undefined .nullDeref ∧
    EvaluateExpression "" = .undefined .nullDeref := by
  decide

/-- C5, amended: when the token at a Factor position is `End` or a symbol other than
`(` and `-`, `Multiplicate` returns the null pointer and leaves the tokenizer as it
is; no error is raised, for any input. For the empty input `ParseExpression` returns
the null pointer, for `+` the node `BinOperation(null, null, '+')`. -/
theorem Multiplicate_unexpected_token_null (fuel : Nat) (token : Tokenizer)
    (h : token.type_ = .kEnd ∨
      (token.type_ = .kSymbol ∧ token.symbol_ ≠ '(' ∧ token.symbol_ ≠ '-')) :
    Multiplicate (fuel + 1) token = .ret (.null, token) ∧
    (∀ expression e, EvaluateExpression expression ≠ .raised e) ∧
    (parseInput "").bind (fun r => .ret r.1) = .ret .null ∧
    (parseInput "+").bind (fun r => .ret r.1) = .ret (.BinOperation .null .null '+') :=
  ⟨Multiplicate_other fuel token h, EvaluateExpression_not_raised, by decide, by decide⟩

/-- Witness of amended C5 at the token `+` of the input `+`. -/
theorem Multiplicate_unexpected_token_null_witness :
    Multiplicate 1 ⟨⟨[], false, false⟩, .kSymbol, 0, '+'⟩
      = .ret (.null, ⟨⟨[], false, false⟩, .kSymbol, 0, '+'⟩) :=
  (Multiplicate_unexpected_token_null 0 ⟨⟨[], false, false⟩, .kSymbol, 0, '+'⟩
    (.inr ⟨rfl, by decide, by decide⟩)).1

/-- C6: a chain `t1 op1 t2 ... tn` of factors joined by `*` and `/`, or of terms
joined by `+` and `-`, is parsed to the left-nested tree
`BinOp(...BinOp(BinOp(t1,t2,op1),t3,op2)...,tn,opn-1)`; `1 - 2 - 3` is parsed as
`(1 - 2) - 3` and evaluates to -4. -/
theorem chain_parses_left_nested (first : Syn) (links : List Link)
    (h : isTermChain first links = true ∨ isExprChain first links = true) :
    (∃ t, parseInput (String.mk (chainText first links))
      = .ret (leftNested first.tree links, t)) ∧
    (parseInput "1 - 2 - 3").bind (fun r => .ret r.1)
      = .ret (.BinOperation (.BinOperation (.Constant 1) (.Constant 2) '-')
          (.Constant 3) '-') ∧
    EvaluateExpression "1 - 2 - 3" = .ret (-4) := by
  refine ⟨?_, by decide, by decide⟩
  have hv : (chain first links).valid = true := by
    rcases h with h | h
    · simp only [isTermChain, Bool.and_eq_true, beq_iff_eq] at h
      exact termChain_valid first links h.1.1 (by omega) h.2
    · simp only [isExprChain, Bool.and_eq_true, decide_eq_true_eq] at h
      exact exprChain_valid first links h.1.1 h.2
  obtain ⟨t, ht, -⟩ := parseInput_print (chain first links) hv
  rw [chain_print, chain_tree] at ht
  exact ⟨t, ht⟩

/-- Witness of C6 at the chain `1 - 2 - 3`. -/
theorem chain_parses_left_nested_witness :
    isExprChain (.num [] ['1']) exChain = true ∧
    String.mk (chainText (.num [] ['1']) exChain) = "1 - 2 - 3" ∧
    leftNested (Syn.num [] ['1']).tree exChain
      = .BinOperation (.BinOperation (.Constant 1) (.Constant 2) '-') (.Constant 3) '-' ∧
    ∃ t, parseInput (String.mk (chainText (.num [] ['1']) exChain))
      = .ret (leftNested (Syn.num [] ['1']).tree exChain, t) :=
  ⟨by decide, by decide, by decide,
    (chain_parses_left_nested (.num [] ['1']) exChain (.inr (by decide))).1⟩

/-- C7: `*` and `/` bind tighter than `+` and `-`. For literals `a`, `b`, `c` the
text `a + b * c` is parsed with the `*` node as right child of the `+` node,
`a - b / c` with the `/` node as right child of the `-` node, and `a * b + c` with
the `*` node as left child of the `+` node; `2 + 3 * 4` evaluates to 14. -/
theorem precedence_mul_over_add (a b c : List Char) (ha : isLiteral a = true)
    (hb : isLiteral b = true) (hc : isLiteral c = true) :
    (∃ t, parseInput (String.mk (a ++ [' ', '+', ' '] ++ b ++ [' ', '*', ' '] ++ c))
      = .ret (.BinOperation (.Constant (digitsValue 0 a))
          (.BinOperation (.Constant (digitsValue 0 b)) (.Constant (digitsValue 0 c)) '*')
          '+', t)) ∧
    (∃ t, parseInput (String.mk (a ++ [' ', '-', ' '] ++ b ++ [' ', '/', ' '] ++ c))
      = .ret (.BinOperation (.Constant (digitsValue 0 a))
          (.BinOperation (.Constant (digitsValue 0 b)) (.Constant (digitsValue 0 c)) '/')
          '-', t)) ∧
    (∃ t, parseInput (String.mk (a ++ [' ', '*', ' '] ++ b ++ [' ', '+', ' '] ++ c))
      = .ret (.BinOperation
          (.BinOperation (.Constant (digitsValue 0 a)) (.Constant (digitsValue 0 b)) '*')
          (.Constant (digitsValue 0 c)) '+', t)) ∧
    EvaluateExpression "2 + 3 * 4" = .ret 14 := by
  refine ⟨?_, ?_, ?_, by decide⟩
  · obtain ⟨t, h, -⟩ := parseInput_print
      (.bin (.num [] a) [' '] '+' (.bin (.num [' '] b) [' '] '*' (.num [' '] c)))
      (by simp [Syn.valid, Syn.level, ha, hb, hc, isspace, isMulOp, isAddOp])
    refine ⟨t, ?_⟩
    simpa [Syn.print, Syn.tree] using h
  · obtain ⟨t, h, -⟩ := parseInput_print
      (.bin (.num [] a) [' '] '-' (.bin (.num [' '] b) [' '] '/' (.num [' '] c)))
      (by simp [Syn.valid, Syn.level, ha, hb, hc, isspace, isMulOp, isAddOp])
    refine ⟨t, ?_⟩
    simpa [Syn.print, Syn.tree] using h
  · obtain ⟨t, h, -⟩ := parseInput_print
      (.bin (.bin (.num [] a) [' '] '*' (.num [' '] b)) [' '] '+' (.num [' '] c))
      (by simp [Syn.valid, Syn.level, ha, hb, hc, isspace, isMulOp, isAddOp])
    refine ⟨t, ?_⟩
    simpa [Syn.print, Syn.tree] using h

/-- Witness of C7 at the literals 2, 3 and 4. -/
theorem precedence_mul_over_add_witness :
    ∃ t, parseInput "2 + 3 * 4"
      = .ret (.BinOperation (.Constant 2) (.BinOperation (.Constant 3) (.Constant 4) '*')
          '+', t) :=
  (precedence_mul_over_add ['2'] ['3'] ['4'] (by decide) (by decide) (by decide)).1

/-- C8: a parenthesised group overrides precedence. For every expression `e` of the
grammar, `Multiplicate` at the text `( e )` returns exactly the tree of `e` (the tree
`ParseExpression` builds for `e` alone) and hands back the tokenizer advanced to the
token after `)`; `(2 + 3) * 4` evaluates to 20. -/
theorem group_is_single_operand (e : Syn) (ws1 ws2 k : List Char) (t0 : Tokenizer)
    (n : Nat) (hv : e.valid = true) (hw1 : ws1.all isspace = true)
    (hw2 : ws2.all isspace = true)
    (hp : Pending t0 (ws1 ++ '(' :: (e.print ++ (ws2 ++ ')' :: k))))
    (hn : 3 * e.print.length + 4 ≤ n) :
    (∃ t1, Pending t1 k ∧
      t0.Consume.bind (Multiplicate n) = t1.Consume.bind fun t => .ret (e.tree, t)) ∧
    (∃ t, parseInput (String.mk e.print) = .ret (e.tree, t)) ∧
    EvaluateExpression "(2 + 3) * 4" = .ret 20 := by
  refine ⟨?_, ?_, by decide⟩
  · exact Multiplicate_group ws1 e ws2 k t0 n hv hw1 hw2 (parser_follows_grammar e hv).2.2 hp hn
  · obtain ⟨t, h, -⟩ := parseInput_print e hv
    exact ⟨t, h⟩

/-- Witness of C8 at the group of `(2 + 3) * 4`: the tokenizer is handed back on the
token `*`. -/
theorem group_is_single_operand_witness :
    (Tokenizer.new ⟨"(2 + 3) * 4".toList, false, false⟩).bind (Multiplicate 20)
      = .ret (.BinOperation (.Constant 2) (.Constant 3) '+',
          ⟨⟨" 4".toList, false, false⟩, .kSymbol, 3, '*'⟩) ∧
    ∃ t1, Pending t1 " * 4".toList ∧
      (Tokenizer.new ⟨"(2 + 3) * 4".toList, false, false⟩).bind (Multiplicate 20)
        = t1.Consume.bind fun t => .ret (exSum.tree, t) :=
  ⟨by decide,
    (group_is_single_operand exSum [] [] " * 4".toList
      ⟨⟨"(2 + 3) * 4".toList, false, false⟩, .kEnd, 0, Char.ofNat 0⟩ 20
      (by decide) (by decide) (by decide) ⟨by decide, rfl, by decide⟩ (by decide)).1⟩

/-- C9: unary negation nests to the right and binds tighter than every binary
operator. Minus signs in front of a factor `f`, `wss.length` of them, are parsed by
`Multiplicate` to that many nested `UnaryOperation` nodes around the tree of `f`; a
binary operator after the negated factor takes all of it as its left operand.
`- - 3` is parsed as `UnaryOperation(UnaryOperation(Constant(3)))`, `- - 5`
evaluates to 5 and `-5 + 3` to -2. -/
theorem unary_negation_nests (wss : List (List Char)) (f : Syn) (k : List Char)
    (t0 : Tokenizer) (n : Nat) (hw : (wss.all fun ws => ws.all isspace) = true)
    (hv : f.valid = true) (hl : f.level = 0) (hk : NoDigitHead k)
    (hp : Pending t0 (minusText wss ++ f.print ++ k))
    (hn : 3 * (minusText wss ++ f.print).length + 1 ≤ n) :
    (∃ t1, Pending t1 k ∧
      t0.Consume.bind (Multiplicate n)
        = t1.Consume.bind fun t => .ret (nestedUnary wss.length f.tree, t)) ∧
    (∀ (ws : List Char) (op : Char) (g : Syn), ws.all isspace = true → g.valid = true →
      ((isMulOp op = true ∧ g.level = 0) ∨ (isAddOp op = true ∧ g.level ≤ 1)) →
      ∃ t, parseInput (String.mk (minusText wss ++ f.print ++ ws ++ op :: g.print))
        = .ret (.BinOperation (nestedUnary wss.length f.tree) g.tree op, t)) ∧
    (parseInput "- - 3").bind (fun r => .ret r.1)
      = .ret (.UnaryOperation (.UnaryOperation (.Constant 3))) ∧
    EvaluateExpression "- - 5" = .ret 5 ∧
    EvaluateExpression "-5 + 3" = .ret (-2) := by
  obtain ⟨hnv, hnl⟩ := negated_valid wss f hw hv hl
  refine ⟨?_, ?_, by decide, by decide, by decide⟩
  · have := (parser_follows_grammar _ hnv).1 hnl k t0 n (.inr hk)
      (by rw [negated_print]; exact hp) (by rw [negated_print]; exact hn)
    rw [negated_tree] at this
    exact this
  · intro ws op g hws hg hop
    obtain ⟨t, h, -⟩ := parseInput_print (.bin (negated wss f) ws op g) (by
      simp only [Syn.valid, hws, hnv, hg, hnl, Bool.and_true, Bool.true_and,
        Bool.or_eq_true, Bool.and_eq_true, decide_eq_true_eq, beq_iff_eq]
      rcases hop with ⟨h1, h2⟩ | ⟨h1, h2⟩
      · exact .inl ⟨⟨h1, by omega⟩, h2⟩
      · exact .inr ⟨h1, h2⟩)
    refine ⟨t, ?_⟩
    simpa [Syn.print, Syn.tree, negated_print, negated_tree] using h

/-- Witness of C9 at `- - 3`, and at `- - 3 * 2`. -/
theorem unary_negation_nests_witness :
    (∃ t1, Pending t1 [] ∧
      (Tokenizer.new ⟨"- - 3".toList, false, false⟩).bind (Multiplicate 16)
        = t1.Consume.bind fun t =>
            .ret (.UnaryOperation (.UnaryOperation (.Constant 3)), t)) ∧
    ∃ t, parseInput "- - 3 * 2"
      = .ret (.BinOperation (.UnaryOperation (.UnaryOperation (.Constant 3)))
          (.Constant 2) '*', t) :=
  have h := unary_negation_nests [[], [' ']] (.num [' '] ['3']) []
    ⟨⟨"- - 3".toList, false, false⟩, .kEnd, 0, Char.ofNat 0⟩ 16
    (by decide) (by decide) (by decide) (fun _ _ h => by cases h)
    ⟨by decide, rfl, by decide⟩ (by decide)
  ⟨h.1, h.2.1 [' '] '*' (.num [' '] ['2']) (by decide) (by decide) (.inl ⟨by decide, by decide⟩)⟩

/-- C10, the failing run: with a space after the last token the whitespace loop of
`Consume` never ends, so `EvaluateExpression` does not return; without it the result
is 3. -/
theorem trailing_whitespace_spins :
    EvaluateExpression "  1  +   2 " = .spins ∧
    EvaluateExpression "1+2" = .ret 3 ∧
    EvaluateExpression "  1  +   2" = .ret 3 := by
  decide

/-- C11, the failing runs: on an input that ends in whitespace a call of `Consume`
never returns, and after a literal too large for `int64_t` that is followed by more
text no number of calls brings the token `End`. -/
theorem token_sequence_not_finite :
    Tokenizer.new (IStream.ofString " ") = .spins ∧
    tokenize "12+3 " = .spins ∧
    (Tokenizer.new (IStream.ofString "12+3 ")).bind (consumeTimes 2)
      = .ret ⟨⟨[' '], false, false⟩, .kNumber, 3, '+'⟩ ∧
    (Tokenizer.new (IStream.ofString "12+3 ")).bind (consumeTimes 3) = .spins ∧
    (∀ n, ∃ t, (Tokenizer.new (IStream.ofString "99999999999999999999+1")).bind
        (consumeTimes n) = .ret t ∧ t.type_ ≠ .kEnd) := by
  refine ⟨by decide, by decide, by decide, by decide, ?_⟩
  intro n
  have h : Tokenizer.new (IStream.ofString "99999999999999999999+1")
      = .ret ⟨⟨['+', '1'], false, true⟩, .kNumber, INT64_MAX, Char.ofNat 0⟩ := by decide
  rw [h, Outcome.bind_ret]
  exact consumeTimes_failed n _ rfl rfl (fun h => by cases h)

/-- C12: no trailing-content check. For every expression `s` of the grammar and
every text `k` after it that starts at a token boundary and whose first token is
not one of `+ - * /` (a number, a parenthesis, any other symbol), the parser returns
the tree of `s`, and `EvaluateExpression` of `s` followed by `k` has the outcome of
`EvaluateExpression` of `s` alone: its value, when the arithmetic of `s` is safe. -/
theorem trailing_tokens_ignored (s : Syn) (k : List Char) (c : Char) (hv : s.valid = true)
    (hb : Boundary s k) (hc : firstNonSpace k = some c) (hm : isMulOp c = false)
    (ha : isAddOp c = false) :
    (∃ t, parseInput (String.mk (s.print ++ k)) = .ret (s.tree, t)) ∧
    EvaluateExpression (String.mk (s.print ++ k)) = EvaluateExpression (String.mk s.print) ∧
    (s.safe = true → EvaluateExpression (String.mk (s.print ++ k)) = .ret s.value) := by
  obtain ⟨t, ht⟩ := parseInput_followed s k c hv hb hc hm ha
  obtain ⟨t0, h0, -⟩ := parseInput_print s hv
  have he : EvaluateExpression (String.mk (s.print ++ k)) = Evaluate s.tree := by
    rw [EvaluateExpression_eq, ht]; rfl
  refine ⟨⟨t, ht⟩, ?_, ?_⟩
  · rw [he, EvaluateExpression_eq, h0]; rfl
  · intro hs
    rw [he]
    exact Evaluate_tree s hv hs

/-- Witness of C12 at `1+2` followed by ` 3`, by `)` and by `(9`. -/
theorem trailing_tokens_ignored_witness :
    EvaluateExpression "1+2 3" = .ret 3 ∧ EvaluateExpression "1+2)" = .ret 3 ∧
    EvaluateExpression "1+2(9" = .ret 3 :=
  ⟨(trailing_tokens_ignored exOnePlusTwo [' ', '3'] '3' (by decide)
      (.inr (fun _ _ h => by cases h; decide)) (by decide) (by decide) (by decide)).2.2
      (by decide),
    (trailing_tokens_ignored exOnePlusTwo [')'] ')' (by decide)
      (.inr (fun _ _ h => by cases h; decide)) (by decide) (by decide) (by decide)).2.2
      (by decide),
    (trailing_tokens_ignored exOnePlusTwo ['(', '9'] '(' (by decide)
      (.inr (fun _ _ h => by cases h; decide)) (by decide) (by decide) (by decide)).2.2
      (by decide)⟩

/-- C13: `End` is an idempotent terminal state. When `Consume` is called with the
source exhausted (no character left) the token becomes `End`, and whenever
`Consume` has set `End`, every number of further calls returns with the token type
still `End`. -/
theorem End_is_terminal (t : Tokenizer) (hr : t.in_.rest = []) (hs : t.in_.sound) :
    (∃ t1, t.Consume = .ret t1 ∧ t1.type_ = .kEnd ∧
      ∀ n, ∃ t2, consumeTimes n t1 = .ret t2 ∧ t2.type_ = .kEnd) ∧
    (∀ u u1 : Tokenizer, u.Consume = .ret u1 → u1.type_ = .kEnd →
      ∀ n, ∃ u2, consumeTimes n u1 = .ret u2 ∧ u2.type_ = .kEnd) := by
  have key : ∀ u u1 : Tokenizer, u.Consume = .ret u1 → u1.type_ = .kEnd →
      ∀ n, ∃ u2, consumeTimes n u1 = .ret u2 ∧ u2.type_ = .kEnd := by
    intro u u1 h he n
    exact consumeTimes_at_end n u1 he (Consume_end_eofbit u u1 h he)
  obtain ⟨t1, h1, h2⟩ := Consume_exhausted t hr (hs hr)
  exact ⟨⟨t1, h1, h2, key t t1 h1 h2⟩, key⟩

/-- Witness of C13 at the tokenizer that has read `+` from the input `+`. -/
theorem End_is_terminal_witness :
    ∃ t1, Tokenizer.Consume ⟨⟨[], false, false⟩, .kSymbol, 0, '+'⟩ = .ret t1 ∧
      t1.type_ = .kEnd ∧ ∀ n, ∃ t2, consumeTimes n t1 = .ret t2 ∧ t2.type_ = .kEnd :=
  (End_is_terminal ⟨⟨[], false, false⟩, .kSymbol, 0, '+'⟩ rfl (fun _ h => by cases h)).1

/-- C14: greedy number tokens. When the next character that is not whitespace is a
digit, `Consume` produces a `Number` token and extracts the maximal run of digits;
for a run whose value fits `int64_t` the token holds its base-10 value, and the
first character that is not a digit is left to start the next token. `12+3` yields
`Number 12`, `Symbol '+'`, `Number 3`, `End`. -/
theorem greedy_number_token (t : Tokenizer) (ws ds k : List Char)
    (hp : Pending t (ws ++ (ds ++ k))) (hws : ws.all isspace = true)
    (hl : isLiteral ds = true) (hk : NoDigitHead k) :
    (∃ t1, t.Consume = .ret t1 ∧ t1.current = .Number (digitsValue 0 ds) ∧
      t1.in_.rest = k ∧ Pending t1 k) ∧
    digitsValue 0 ds = Nat.ofDigits 10 (ds.map fun c => c.toNat - 48).reverse ∧
    (∀ (u : Tokenizer) (d : Char) (r : List Char), Pending u (ws ++ d :: r) →
      isdigit d = true →
      ∃ u1, u.Consume = .ret u1 ∧ u1.type_ = .kNumber ∧
        u1.in_.rest = r.dropWhile isdigit) ∧
    tokenize "12+3" = .ret [.Number 12, .Symbol '+', .Number 3, .End] := by
  refine ⟨?_, ?_, ?_, by decide⟩
  · obtain ⟨t1, h1, h2, h3, h4⟩ := Consume_number t ws ds k hp hws hl hk
    refine ⟨t1, h1, ?_, h4.1, h4⟩
    simp only [Tokenizer.current, h2, h3]
  · rw [digitsValue_ofDigits, Nat.ofDigits_append, Nat.ofDigits_singleton, Nat.mul_zero,
      Nat.add_zero]
  · intro u d r hu hd
    obtain ⟨u1, h1, h2, -, h3⟩ := Consume_digit_run u ws d r hu hws hd
    exact ⟨u1, h1, h2, h3⟩

/-- Witness of C14 at the text ` 12+3`. -/
theorem greedy_number_token_witness :
    ∃ t1, Tokenizer.Consume ⟨⟨" 12+3".toList, false, false⟩, .kEnd, 0, Char.ofNat 0⟩
        = .ret t1 ∧
      t1.current = .Number (digitsValue 0 ['1', '2']) ∧ t1.in_.rest = ['+', '3'] ∧
      Pending t1 ['+', '3'] :=
  (greedy_number_token ⟨⟨" 12+3".toList, false, false⟩, .kEnd, 0, Char.ofNat 0⟩
    [' '] ['1', '2'] ['+', '3'] ⟨by decide, rfl, by decide⟩ (by decide) (by decide)
    (fun _ _ h => by cases h; decide)).1

/-- C15: the lexer is permissive about symbols. For every character `c` that is
neither whitespace nor a digit, `Consume` at `c` (after any whitespace) returns the
token `Symbol(c)`, has extracted exactly that character and leaves the stream
without any failure, whether or not `c` is one of `+ - * / ( )`. -/
theorem symbol_token_permissive (t : Tokenizer) (ws : List Char) (c : Char)
    (k : List Char) (hp : Pending t (ws ++ c :: k)) (hws : ws.all isspace = true)
    (hs : isspace c = false) (hd : isdigit c = false) :
    (∃ t1, t.Consume = .ret t1 ∧ t1.current = .Symbol c ∧ t1.in_.rest = k ∧
      t1.in_.failbit = false ∧ Pending t1 k) ∧
    tokenize "%^" = .ret [.Symbol '%', .Symbol '^', .End] := by
  refine ⟨?_, by decide⟩
  obtain ⟨t1, h1, h2, h3, h4⟩ := Consume_symbol t ws c k hp hws hs hd
  refine ⟨t1, h1, ?_, h4.1, h4.2.1, h4⟩
  simp only [Tokenizer.current, h2, h3]

/-- Witness of C15 at the text ` %2`. -/
theorem symbol_token_permissive_witness :
    ∃ t1, Tokenizer.Consume ⟨⟨" %2".toList, false, false⟩, .kEnd, 0, Char.ofNat 0⟩
        = .ret t1 ∧
      t1.current = .Symbol '%' ∧ t1.in_.rest = ['2'] ∧ t1.in_.failbit = false ∧
      Pending t1 ['2'] :=
  (symbol_token_permissive ⟨⟨" %2".toList, false, false⟩, .kEnd, 0, Char.ofNat 0⟩
    [' '] '%' ['2'] ⟨by decide, rfl, by decide⟩ (by decide) (by decide) (by decide)).1

/-- C16: the closing parenthesis is not verified. For every expression `e` of the
grammar and every text `k` after it whose first token `T` is not one of `+ - * /`
(a number, any other symbol, or `End` when `k` is empty), `Multiplicate` at the text
`( e k` returns the tree of `e` after two `Consume` from `k`: the first reads `T`,
the second advances past it as if it were `)`. The call succeeds whenever `k` does
not end in whitespace. A missing `)` is masked: `EvaluateExpression("(1+2")` returns
3, and `]` or a number closes a group too. -/
theorem closing_parenthesis_not_verified (e : Syn) (ws1 k : List Char) (t0 : Tokenizer)
    (n : Nat) (hv : e.valid = true) (hw1 : ws1.all isspace = true) (hb : Boundary e k)
    (hf : ∀ c, firstNonSpace k = some c → isMulOp c = false ∧ isAddOp c = false)
    (hp : Pending t0 (ws1 ++ '(' :: (e.print ++ k)))
    (hn : 3 * e.print.length + 4 ≤ n) :
    (∃ t1, Pending t1 k ∧
      t0.Consume.bind (Multiplicate n)
        = t1.Consume.bind fun tT => tT.Consume.bind fun t3 => .ret (e.tree, t3)) ∧
    (endsInSpace k = false → ∃ t3, t0.Consume.bind (Multiplicate n) = .ret (e.tree, t3)) ∧
    EvaluateExpression "(1+2" = .ret 3 ∧
    EvaluateExpression "(1+2]*4" = .ret 12 ∧
    EvaluateExpression "(1+2 3*4" = .ret 12 := by
  have key : ∃ t1, Pending t1 k ∧
      t0.Consume.bind (Multiplicate n)
        = t1.Consume.bind fun tT => tT.Consume.bind fun t3 => .ret (e.tree, t3) := by
    obtain ⟨t1, h1, h2, h3, h4⟩ :=
      Consume_symbol t0 ws1 '(' (e.print ++ k) hp hw1 (by decide) (by decide)
    obtain ⟨n, rfl⟩ : ∃ n', n = n' + 1 := ⟨n - 1, by omega⟩
    obtain ⟨t2, h5, h6⟩ := ExprOk_whole (parser_follows_grammar e hv).2.2 hv k t1 n hb hf h4
      (by omega)
    refine ⟨t2, h5, ?_⟩
    rw [h1, Outcome.bind_ret, Multiplicate_paren n t1 h2 h3, ← Outcome.bind_assoc, h6,
      Outcome.bind_assoc]
    rfl
  refine ⟨key, ?_, by decide, by decide, by decide⟩
  intro hk
  obtain ⟨t1, h1, h2⟩ := key
  obtain ⟨tT, h3, h4, -⟩ := Consume_tokens t1 (by rw [h1.1]; exact hk)
  obtain ⟨t3, h5, -, -⟩ := Consume_tokens tT h4
  exact ⟨t3, by rw [h2, h3, Outcome.bind_ret, h5, Outcome.bind_ret]⟩

/-- Witness of C16 at the input `(1+2`: the group is closed by `End`. -/
theorem closing_parenthesis_not_verified_witness :
    (Tokenizer.new ⟨"(1+2".toList, false, false⟩).bind (Multiplicate 16)
      = .ret (.BinOperation (.Constant 1) (.Constant 2) '+',
          ⟨⟨[], true, true⟩, .kEnd, 2, '+'⟩) ∧
    ∃ t1, Pending t1 [] ∧
      (Tokenizer.new ⟨"(1+2".toList, false, false⟩).bind (Multiplicate 16)
        = t1.Consume.bind fun tT => tT.Consume.bind fun t3 => .ret (exOnePlusTwo.tree, t3) :=
  ⟨by decide,
    (closing_parenthesis_not_verified exOnePlusTwo [] []
      ⟨⟨"(1+2".toList, false, false⟩, .kEnd, 0, Char.ofNat 0⟩ 16 (by decide) (by decide)
      (.inr (fun _ _ h => by cases h)) (fun _ h => by cases h)
      ⟨by decide, rfl, by decide⟩ (by decide)).1⟩

/-- C17, counterexample: `1 % 2` and `2 ^ 3` hold a symbol outside `+ - * / ( )`, yet
`EvaluateExpression` returns 1 and 2 and raises no `UnexpectedToken`. -/
theorem unrecognized_symbol_not_rejected :
    EvaluateExpression "1 % 2" = .ret 1 ∧
    EvaluateExpression "1 % 2" ≠ .raised .UnexpectedToken ∧
    EvaluateExpression "2 ^ 3" = .ret 2 ∧
    (Tokenizer.new ⟨"% 2".toList, false, false⟩).bind (fun t => .ret (t.type_, t.symbol_))
      = .ret (.kSymbol, '%') := by
  decide

/-- C17, amended: a character `c` that is no whitespace, no digit and none of
`+ - * / (` (so also every character outside `+ - * / ( )`) is tokenized as
`Symbol(c)`; the parser raises nothing on it. At a
Factor position `Multiplicate` returns the null pointer and leaves the token; after
a complete expression the loops stop at it, so the symbol and everything after it is
ignored (`1 % 2` returns 1). -/
theorem unrecognized_symbol_handling (c : Char) (hs : isspace c = false)
    (hd : isdigit c = false) (hm : isMulOp c = false) (ha : isAddOp c = false)
    (hl : c ≠ '(') :
    (∀ (t : Tokenizer) (ws k : List Char), Pending t (ws ++ c :: k) →
      ws.all isspace = true →
      ∃ t1, t.Consume = .ret t1 ∧ t1.type_ = .kSymbol ∧ t1.symbol_ = c ∧ Pending t1 k) ∧
    (∀ (fuel : Nat) (token : Tokenizer), token.type_ = .kSymbol → token.symbol_ = c →
      Multiplicate (fuel + 1) token = .ret (.null, token)) ∧
    (∀ (s : Syn) (ws k : List Char), s.valid = true → ws.all isspace = true →
      EvaluateExpression (String.mk (s.print ++ (ws ++ c :: k)))
        = EvaluateExpression (String.mk s.print)) ∧
    (∀ expression e, EvaluateExpression expression ≠ .raised e) ∧
    EvaluateExpression "1 % 2" = .ret 1 := by
  refine ⟨?_, ?_, ?_, EvaluateExpression_not_raised, by decide⟩
  · intro t ws k hp hws
    exact Consume_symbol t ws c k hp hws hs hd
  · intro fuel token hty hsy
    apply Multiplicate_other
    refine .inr ⟨hty, ?_, ?_⟩
    · rw [hsy]; exact hl
    · rw [hsy]; intro h; rw [h] at ha; revert ha; decide
  · intro s ws k hv hws
    obtain ⟨t, ht⟩ := parseInput_followed s (ws ++ c :: k) c hv
      (.inr (NoDigitHead_spaces_cons ws c k hws hd))
      (firstNonSpace_spaces_cons ws c k hws hs) hm ha
    obtain ⟨t0, h0, -⟩ := parseInput_print s hv
    rw [EvaluateExpression_eq, EvaluateExpression_eq, ht, h0]
    rfl

/-- Witness of amended C17 at the character `%`. -/
theorem unrecognized_symbol_handling_witness :
    Multiplicate 1 ⟨⟨[' ', '2'], false, false⟩, .kSymbol, 0, '%'⟩
      = .ret (.null, ⟨⟨[' ', '2'], false, false⟩, .kSymbol, 0, '%'⟩) ∧
    EvaluateExpression (String.mk (exOnePlusTwo.print ++ ([' '] ++ '%' :: ['7'])))
      = EvaluateExpression (String.mk exOnePlusTwo.print) :=
  have h := unrecognized_symbol_handling '%' (by decide) (by decide) (by decide) (by decide)
    (by decide)
  ⟨h.2.1 0 _ rfl rfl, h.2.2.1 exOnePlusTwo [' '] ['7'] (by decide) (by decide)⟩

/-- C18: parsing inverts fully parenthesised printing. For every tree `t` without
null pointer, with constants from 0 to `INT64_MAX` and operators among `+ - * /`,
printed with decimal constants, `-(e)` for a negation and `(l op r)` for a binary
node, tokenizing the text and running `ParseExpression` returns exactly `t` and
leaves the tokenizer at `End`. -/
theorem parse_inverts_render (t : Expression) (h : renderable t = true) :
    ∃ tok, parseInput (String.mk (render t)) = .ret (t, tok) ∧ tok.type_ = .kEnd := by
  obtain ⟨tok, h1, h2⟩ := parseInput_print (renderSyn t) (renderSyn_valid t h)
  rw [renderSyn_print, renderSyn_tree t h] at h1
  exact ⟨tok, h1, h2⟩

/-- Witness of C18 at the tree printed as `(-(12)*3)`. -/
theorem parse_inverts_render_witness :
    String.mk (render exRendered) = "(-(12)*3)" ∧
    ∃ tok, parseInput (String.mk (render exRendered)) = .ret (exRendered, tok) ∧
      tok.type_ = .kEnd :=
  ⟨by decide, parse_inverts_render exRendered (by decide)⟩

/-- C19: the parser terminates on every finite token stream. On a text that does not
end in whitespace (so that every `Consume` returns), `ParseExpression` returns
within a budget of three nested calls or loop rounds per token left, plus three.
Every `Consume` from a token that makes the parser recurse or loop (`(`, `-`, `+`,
`*`, `/`) lowers the tokens left, and no loop goes on at an `End` or `Number` token,
whatever operator the stale field `symbol_` still holds. -/
theorem ParseExpression_terminates (token : Tokenizer) (n : Nat)
    (hs : endsInSpace token.in_.rest = false) (hn : 3 * token.tokenMeasure + 3 ≤ n) :
    (∃ r, ParseExpression n token = .ret r ∧ r.2.tokenMeasure ≤ token.tokenMeasure) ∧
    (∀ t : Tokenizer, endsInSpace t.in_.rest = false → t.live = true →
      ∃ t1, t.Consume = .ret t1 ∧ t1.tokenMeasure < t.tokenMeasure) ∧
    (∀ (m : Nat) (e : Expression) (t : Tokenizer), t.type_ ≠ .kSymbol →
      ItemLoop (m + 1) e t = .ret (e, t) ∧ ParseLoop (m + 1) e t = .ret (e, t)) ∧
    (∀ input : String, endsInSpace input.toList = false → ∃ r, parseInput input = .ret r) := by
  refine ⟨?_, ?_, ?_, parseInput_returns⟩
  · obtain ⟨r, h1, -, h3⟩ := (parser_returns n).2.2.2.2 token hs hn
    exact ⟨r, h1, h3⟩
  · intro t ht hl
    obtain ⟨t1, h1, -, h3⟩ := Consume_tokens t ht
    have := tokenMeasure_of_live t hl
    exact ⟨t1, h1, by omega⟩
  · intro m e t ht
    exact ⟨ItemLoop_exit m e t (fun h => ht h.1), ParseLoop_exit m e t (fun h => ht h.1)⟩

/-- Witness of C19 at the tokenizer that has read `(` from `(1+2)*3`: six tokens are
left, the current one counts, and a budget of 24 is enough. -/
theorem ParseExpression_terminates_witness :
    Tokenizer.tokenMeasure ⟨⟨"1+2)*3".toList, false, false⟩, .kSymbol, 0, '('⟩ = 7 ∧
    ∃ r, ParseExpression 24 ⟨⟨"1+2)*3".toList, false, false⟩, .kSymbol, 0, '('⟩ = .ret r ∧
      r.2.tokenMeasure
        ≤ Tokenizer.tokenMeasure ⟨⟨"1+2)*3".toList, false, false⟩, .kSymbol, 0, '('⟩ :=
  ⟨by decide,
    (ParseExpression_terminates ⟨⟨"1+2)*3".toList, false, false⟩, .kSymbol, 0, '('⟩ 24
      (by decide) (by decide)).1⟩

/-- C20: every `BinOperation` node built by `Item` or `ParseExpression`, for any
input, carries an operator in `+ - * /`: the loop of `Item` builds only `*` and `/`
nodes on its running result, the loop of `ParseExpression` only `+` and `-` nodes.
So every tree the parser returns has all operators known, and its evaluation never
takes the `default` case that returns 0. -/
theorem parsed_operators_known (input : String) (p : Parsed)
    (h : parseInput input = .ret p) :
    p.1.opsKnown = true ∧ defaultTaken p.1 = false ∧
    (∀ n e token r, ItemLoop n e token = .ret r → stackedOn isMulOp e r.1 = true) ∧
    (∀ n e token r, ParseLoop n e token = .ret r → stackedOn isAddOp e r.1 = true) ∧
    (∀ n token r, Item n token = .ret r → r.1.opsKnown = true) ∧
    (∀ n token r, ParseExpression n token = .ret r →
      r.1.opsKnown = true ∧ defaultTaken r.1 = false) := by
  have hp : p.1.opsKnown = true := by
    simp only [parseInput] at h
    obtain ⟨t1, -, h2⟩ := Outcome.bind_eq_ret _ _ _ h
    exact (parser_operators _).2.2.2.2 t1 p h2
  refine ⟨hp, defaultTaken_of_opsKnown _ hp, ?_, ?_, ?_, ?_⟩
  · intro n e token r hr
    exact (parser_operators n).2.1 e token r hr
  · intro n e token r hr
    exact (parser_operators n).2.2.2.1 e token r hr
  · intro n token r hr
    exact (parser_operators n).2.2.1 token r hr
  · intro n token r hr
    have := (parser_operators n).2.2.2.2 token r hr
    exact ⟨this, defaultTaken_of_opsKnown _ this⟩

/-- Witness of C20 at the input `1*2+3/4`. -/
theorem parsed_operators_known_witness :
    parseInput "1*2+3/4" = .ret
      (.BinOperation (.BinOperation (.Constant 1) (.Constant 2) '*')
        (.BinOperation (.Constant 3) (.Constant 4) '/') '+',
        ⟨⟨[], true, true⟩, .kEnd, 4, '/'⟩) ∧
    defaultTaken (.BinOperation (.BinOperation (.Constant 1) (.Constant 2) '*')
      (.BinOperation (.Constant 3) (.Constant 4) '/') '+') = false :=
  ⟨by decide, (parsed_operators_known "1*2+3/4"
    (.BinOperation (.BinOperation (.Constant 1) (.Constant 2) '*')
      (.BinOperation (.Constant 3) (.Constant 4) '/') '+',
      ⟨⟨[], true, true⟩, .kEnd, 4, '/'⟩) (by decide)).2.1⟩

end Calculator
